import Mathlib

/-!
Verification of the bitcask append-only key/value storage engine.

The Go sources are shallowly embedded: byte strings become `List Nat`
(each byte reduced modulo 256 where the source truncates), machine
integers become `Nat`/`Int` with explicit `% 2^w` at every point where
the Go code performs a narrowing conversion or fixed-width arithmetic,
fallible operations return `Except`, and a Go runtime panic from a
slice-bounds violation is modelled as the dedicated error
`RecErr.sliceBounds`.  File contents live in an association list from
file names to byte lists; the wall clock is a natural-number counter
threaded through the state (the engine reads `time.Now().UnixMicro()`,
modelled as strictly increasing).  OS-level I/O is assumed to succeed
except where a claim is explicitly about failure, in which case the
failing call is driven by an explicit boolean or oracle parameter.
-/

/-- Byte strings (Go `[]byte` / `string`) are lists of naturals; encoders
only ever emit values `< 256`. -/
abbrev Bytes := List Nat

/-- Little-endian encoding of the low 16 bits of `n`
(`binary.LittleEndian.PutUint16`). -/
def u16le (n : Nat) : Bytes := [n % 2^8, n / 2^8 % 2^8]

/-- Little-endian encoding of the low 32 bits of `n`
(`binary.LittleEndian.PutUint32`). -/
def u32le (n : Nat) : Bytes :=
  [n % 2^8, n / 2^8 % 2^8, n / 2^16 % 2^8, n / 2^24 % 2^8]

/-- Little-endian encoding of the low 64 bits of `n`
(`binary.LittleEndian.PutUint64`). -/
def u64le (n : Nat) : Bytes :=
  [n % 2^8, n / 2^8 % 2^8, n / 2^16 % 2^8, n / 2^24 % 2^8,
   n / 2^32 % 2^8, n / 2^40 % 2^8, n / 2^48 % 2^8, n / 2^56 % 2^8]

/-- Byte of `b` at index `i` (0 when out of range; the decoders only read
in range on the buffers the engine hands them). -/
def byteAt (b : Bytes) (i : Nat) : Nat := b.getD i 0

/-- Little-endian 16-bit read at offset `i` (`binary.LittleEndian.Uint16`). -/
def readU16 (b : Bytes) (i : Nat) : Nat := byteAt b i + 2^8 * byteAt b (i+1)

/-- Little-endian 32-bit read at offset `i` (`binary.LittleEndian.Uint32`). -/
def readU32 (b : Bytes) (i : Nat) : Nat :=
  byteAt b i + 2^8 * byteAt b (i+1) + 2^16 * byteAt b (i+2) + 2^24 * byteAt b (i+3)

/-- Little-endian 64-bit read at offset `i` (`binary.LittleEndian.Uint64`). -/
def readU64 (b : Bytes) (i : Nat) : Nat :=
  byteAt b i + 2^8 * byteAt b (i+1) + 2^16 * byteAt b (i+2) + 2^24 * byteAt b (i+3) +
  2^32 * byteAt b (i+4) + 2^40 * byteAt b (i+5) + 2^48 * byteAt b (i+6) + 2^56 * byteAt b (i+7)

/-- One shift step of the reflected CRC-32 computation with the IEEE
polynomial 0xEDB88320. -/
def crcStep (c : Nat) : Nat := if c % 2 = 1 then (c / 2) ^^^ 0xEDB88320 else c / 2

/-- Folding one byte into the CRC-32 accumulator: xor the byte in, then
shift eight times. -/
def crcByte (c b : Nat) : Nat :=
  crcStep (crcStep (crcStep (crcStep (crcStep (crcStep (crcStep (crcStep (c ^^^ b % 256))))))))

/-- CRC-32 with the IEEE polynomial (`crc32.ChecksumIEEE`): initial value
0xFFFFFFFF, fold each byte, final complement. -/
def crc32 (data : Bytes) : Nat := (data.foldl crcByte 0xFFFFFFFF) ^^^ 0xFFFFFFFF

/-- Go slice expression `b[lo:hi]`: defined when `lo ≤ hi ≤ len b`,
otherwise a runtime panic, modelled as `none`. -/
def goSlice (b : Bytes) (lo hi : Nat) : Option Bytes :=
  if lo ≤ hi ∧ hi ≤ b.length then some ((b.drop lo).take (hi - lo)) else none

/-- Bit pattern of a Go `int64` viewed as `uint64` (`uint64(tstamp)`). -/
def int64Bits (t : Int) : Nat := (t % (2^64 : Int)).toNat

/-- Reading a `uint64` bit pattern back as a Go `int64` (`int64(tstamp)`). -/
def int64OfBits (u : Nat) : Int := if u < 2^63 then (u : Int) else (u : Int) - 2^64

/-- Errors of the record decoder: `corruption` is `errDataCorruption`
("corrution detected: datastore files are corrupted"), `sliceBounds` is a
Go runtime panic from a slice expression with inverted or overlong
bounds. -/
inductive RecErr where
  | corruption : RecErr
  | sliceBounds : RecErr
  deriving DecidableEq

/-- Header length of data file records (`DataFileRecHdr = 18`). -/
def DataFileRecHdr : Nat := 18

/-- Data parsed from a data file record (`recfmt.DataRec`).  `KeySize` is
the decoded `uint16` field, `ValueSize` the decoded `uint32` field. -/
structure DataRec where
  Key : Bytes
  Value : Bytes
  Tstamp : Int
  KeySize : Nat
  ValueSize : Nat
  deriving DecidableEq

/-- Encoder `recfmt.CompressDataFileRec`: CRC over bytes 4..end, then
timestamp (8 bytes), key size (2), value size (4), key, value.  The Go
code writes the fields at offsets 0/4/12/14/18 of a buffer of exactly
this length, so the buffer is the concatenation below.  `uint16(len(key))`
and `uint32(len(value))` truncate, which `u16le`/`u32le` perform. -/
def CompressDataFileRec (key value : Bytes) (tstamp : Int) : Bytes :=
  u32le (crc32 (u64le (int64Bits tstamp) ++ u16le key.length ++ u32le value.length ++ key ++ value)) ++
  (u64le (int64Bits tstamp) ++ u16le key.length ++ u32le value.length ++ key ++ value)

/-- Decoder `recfmt.ExtractDataFileRec`.  In the Go source
`DataFileRecHdr + keySize` is a `uint16` addition (the untyped constant
18 adopts the type of `keySize`), hence the `% 2^16`; the value slice and
the checksummed region use `uint32` arithmetic, hence `% 2^32`.  The
returned length is `DataFileRecHdr + valueSize + uint32(keySize)`,
again a `uint32`. -/
def ExtractDataFileRec (buf : Bytes) : Except RecErr (DataRec × Nat) :=
  let parsedSum := readU32 buf 0
  let tstamp := readU64 buf 4
  let keySize := readU16 buf 12
  let valueSize := readU32 buf 14
  match goSlice buf 18 ((18 + keySize) % 2^16) with
  | none => .error .sliceBounds
  | some key =>
    match goSlice buf ((18 + keySize) % 2^16) (((18 + keySize) % 2^16 + valueSize) % 2^32) with
    | none => .error .sliceBounds
    | some value =>
      match goSlice buf 4 ((18 + keySize + valueSize) % 2^32) with
      | none => .error .sliceBounds
      | some crcRegion =>
        if parsedSum = crc32 crcRegion then
          .ok (⟨key, value, int64OfBits tstamp, keySize, valueSize⟩,
               (18 + valueSize + keySize) % 2^32)
        else .error .corruption

/-- Digit character for `d < 10`: ASCII code 48 + d, as produced by Go
decimal formatting. -/
def digitChar (d : Nat) : Char := Char.ofNat (48 + d)

/-- Decimal digits of `n`, most significant first.  Computed with explicit
fuel so that the definition is structural; fuel `n + 1` always suffices. -/
def decReprAux : Nat → Nat → List Char
  | 0, _ => []
  | fuel+1, n => if n < 10 then [digitChar n] else decReprAux fuel (n / 10) ++ [digitChar (n % 10)]

/-- Decimal representation of `n`, modelling Go `fmt.Sprintf("%d", n)` and
`strconv.FormatUint(n, 10)`. -/
def decRepr (n : Nat) : List Char := decReprAux (n + 1) n

/-- Numeric value of a digit string; used to invert `decRepr`. -/
def decValue (cs : List Char) : Nat := cs.foldl (fun a c => 10 * a + (c.toNat - 48)) 0

/-- Segment file name `fmt.Sprintf("%d<ext>", tstamp)` for extension
`.data` or `.hint`. -/
def mkName (t : Nat) (ext : String) : String := String.mk (decRepr t ++ ext.data)

/-- Tombstone sentinel `datastore.TompStone`: the bytes of the fixed
64-character hex literal. -/
def TompStone : Bytes :=
  "8890fc70294d02dbde257989e802451c2276be7fb177c3ca4399dc4728e4e1e0".toList.map Char.toNat

/-- Engine errors.  Go errors are strings compared by suffix; each
constructor corresponds to one distinct message: `keyNotExist` is
"<key>: key does not exist" (carrying the key printed in front),
`requiresWrite` is "<op>: require write permission", `corruption` and
`sliceBounds` come from the record decoder, and `ioErr` stands for an
operating-system failure such as opening a file that does not exist. -/
inductive DErr where
  | keyNotExist (key : Bytes) : DErr
  | requiresWrite (op : String) : DErr
  | corruption : DErr
  | sliceBounds : DErr
  | ioErr : DErr
  deriving DecidableEq

/-- Test used by Merge: `strings.HasSuffix(err.Error(), ErrKeyNotExist.Error())`.
Only `keyNotExist` messages end in "key does not exist". -/
def DErr.isKeyNotExist : DErr → Bool
  | .keyNotExist _ => true
  | _ => false

/-- In-memory index value `recfmt.KeyDirRec`: `FileId` is the segment file
name, `ValuePos`/`ValueSize` are `uint32`, `Tstamp` is `int64`. -/
structure KeyDirRec where
  FileId : String
  ValuePos : Nat
  ValueSize : Nat
  Tstamp : Int
  deriving DecidableEq

/-- Encoder `recfmt.CompressHintFileRec`: timestamp (8 bytes), key size
(2), value size (4), value position (4), key, at offsets 0/8/10/14/18. -/
def CompressHintFileRec (key : Bytes) (r : KeyDirRec) : Bytes :=
  u64le (int64Bits r.Tstamp) ++ u16le key.length ++ u32le r.ValueSize ++ u32le r.ValuePos ++ key

/-- Directory contents: file name to byte contents.  The advisory lock
file `.lck` is not represented (it never carries data and every directory
listing in the source filters names starting with a dot). -/
abbrev FS := List (String × Bytes)

/-- Contents of a file (`none` when opening would fail with not-exist). -/
def fsGet : FS → String → Option Bytes
  | [], _ => none
  | (n, c) :: rest, name => if n = name then some c else fsGet rest name

/-- Create or replace a file binding. -/
def fsSet : FS → String → Bytes → FS
  | [], name, b => [(name, b)]
  | (n, c) :: rest, name, b =>
    if n = name then (name, b) :: rest else (n, c) :: fsSet rest name b

/-- Delete a file (`os.Remove`). -/
def fsRemove (fs : FS) (name : String) : FS := fs.filter fun p => p.1 ≠ name

/-- Directory listing (`Readdir`). -/
def fsNames (fs : FS) : List String := fs.map Prod.fst

/-- Write `b` into `content` starting at byte `pos`, extending the file as
needed: Go file writes go through the file offset, which for these
append-only files always equals the number of bytes written since open. -/
def writeAt (content : Bytes) (pos : Nat) (b : Bytes) : Bytes :=
  content.take pos ++ b ++ content.drop (pos + b.length)

/-- Fill a fresh zeroed buffer of size `n` from `content` at offset `pos`
(`make([]byte, n)` then `ReadAt`; the engine only issues reads that lie
entirely inside the file, in which case the buffer is filled completely). -/
def readFill (content : Bytes) (pos n : Nat) : Bytes :=
  let avail := (content.drop pos).take n
  avail ++ List.replicate (n - avail.length) 0

/-- Maximum segment size `maxFileSize = 10 * 1024`. -/
def maxFileSize : Nat := 10 * 1024

/-- Append file type (`datastore.Merge` / `datastore.Active`). -/
inductive AppendType where
  | merge : AppendType
  | active : AppendType
  deriving DecidableEq

/-- Segment writer `datastore.AppendFile`.  `hasFile` models
`fileWrapper != nil`; `hintName`/`hintPos` model the paired hint file
handle and its file offset (merge mode only).  `currentPos` and
`currentSize` are the Go fields of the same names. -/
structure AppendFile where
  hasFile : Bool
  fileName : String
  hintName : String
  appendType : AppendType
  currentPos : Nat
  currentSize : Nat
  hintPos : Nat
  deriving DecidableEq

/-- `datastore.NewAppendFile`: no file is open yet. -/
def NewAppendFile (appendType : AppendType) : AppendFile :=
  { hasFile := false, fileName := "", hintName := "", appendType := appendType,
    currentPos := 0, currentSize := 0, hintPos := 0 }

/-- `AppendFile.newAppendFile`: mint a file name from the current
microsecond clock, open `<t>.data` (and `<t>.hint` in merge mode) with
`O_CREATE|O_RDWR` — creation keeps any existing bytes, which the model
reflects via `getD` — and reset positions.  Returns the new writer state,
directory and clock. -/
def AppendFile.newAppendFile (a : AppendFile) (fs : FS) (clock : Nat) :
    AppendFile × FS × Nat :=
  if a.appendType = AppendType.merge then
    ({ hasFile := true, fileName := mkName clock ".data", hintName := mkName clock ".hint",
       appendType := a.appendType, currentPos := 0, currentSize := 0, hintPos := 0 },
     fsSet (fsSet fs (mkName clock ".data") ((fsGet fs (mkName clock ".data")).getD []))
       (mkName clock ".hint")
       ((fsGet (fsSet fs (mkName clock ".data") ((fsGet fs (mkName clock ".data")).getD []))
         (mkName clock ".hint")).getD []),
     clock + 1)
  else
    ({ hasFile := true, fileName := mkName clock ".data", hintName := a.hintName,
       appendType := a.appendType, currentPos := 0, currentSize := 0, hintPos := 0 },
     fsSet fs (mkName clock ".data") ((fsGet fs (mkName clock ".data")).getD []),
     clock + 1)

/-- Final lines of `AppendFile.WriteData`, after any rollover: perform the
underlying `Write` of the encoded record at the file offset (which equals
`currentPos`) and advance the position accounting; `wfail` injects an
operating-system failure of the underlying write (the engine is otherwise
modelled with healthy I/O), in which case `(0, err)` is returned with
nothing written. -/
def writeDataAppend (wfail : Bool) (a : AppendFile) (fs : FS) (clock : Nat)
    (key value : Bytes) (tstamp : Int) : Except DErr Nat × AppendFile × FS × Nat :=
  if wfail then (.error .ioErr, a, fs, clock)
  else
    (.ok a.currentPos,
     { a with currentPos := a.currentPos + (CompressDataFileRec key value tstamp).length,
              currentSize := a.currentSize + (CompressDataFileRec key value tstamp).length },
     fsSet fs a.fileName
       (writeAt ((fsGet fs a.fileName).getD []) a.currentPos
         (CompressDataFileRec key value tstamp)),
     clock)

/-- `AppendFile.WriteData`: encode the record; roll over when no file is
open or appending would exceed `maxFileSize` (the decision uses the size
before the append); then append and return the write position. -/
def AppendFile.WriteData (wfail : Bool) (a : AppendFile) (fs : FS) (clock : Nat)
    (key value : Bytes) (tstamp : Int) : Except DErr Nat × AppendFile × FS × Nat :=
  if a.hasFile = false ∨
      (CompressDataFileRec key value tstamp).length + a.currentSize > maxFileSize then
    match a.newAppendFile fs clock with
    | (a1, fs1, clock1) => writeDataAppend wfail a1 fs1 clock1 key value tstamp
  else
    writeDataAppend wfail a fs clock key value tstamp

/-- `AppendFile.WriteHint`: append a hint record to the open hint file. -/
def AppendFile.WriteHint (a : AppendFile) (fs : FS) (key : Bytes) (r : KeyDirRec) :
    AppendFile × FS :=
  let buf := CompressHintFileRec key r
  let content := (fsGet fs a.hintName).getD []
  ({ a with hintPos := a.hintPos + buf.length },
   fsSet fs a.hintName (writeAt content a.hintPos buf))

/-- `DataStore.ReadValueFromFile`: read `DataFileRecHdr + uint32(len key) +
valueSize` bytes (a `uint32` sum) at `valuePos`, decode, and translate a
tombstone value into the not-exist error carrying the decoded key. -/
def ReadValueFromFile (fs : FS) (fileId : String) (key : Bytes)
    (valuePos valueSize : Nat) : Except DErr Bytes :=
  let bufsz := (18 + key.length + valueSize) % 2^32
  match fsGet fs fileId with
  | none => .error .ioErr
  | some content =>
    match ExtractDataFileRec (readFill content valuePos bufsz) with
    | .error .corruption => .error .corruption
    | .error .sliceBounds => .error .sliceBounds
    | .ok (data, _) =>
      if data.Value = TompStone then .error (.keyNotExist data.Key)
      else .ok data.Value

/-- Config options (`bitcask.ConfigOpt` constants). -/
inductive ConfigOpt where
  | ReadOnly : ConfigOpt
  | ReadWrite : ConfigOpt
  | SyncOnPut : ConfigOpt
  | SyncOnDemand : ConfigOpt
  deriving DecidableEq

/-- Parsed user options (`bitcask.options`). -/
structure Options where
  syncOption : ConfigOpt
  accessPermission : ConfigOpt
  deriving DecidableEq

/-- `parseUsrOpts`: defaults are sync-on-demand and read-only; the last
occurrence of an option in its category wins (here: any occurrence sets
the category, later ones overwrite, which for a two-valued scan is the
same fold as the source's switch). -/
def parseUsrOpts (opts : List ConfigOpt) : Options :=
  opts.foldl
    (fun acc opt =>
      match opt with
      | ConfigOpt.SyncOnPut => { acc with syncOption := ConfigOpt.SyncOnPut }
      | ConfigOpt.ReadWrite => { acc with accessPermission := ConfigOpt.ReadWrite }
      | _ => acc)
    { syncOption := ConfigOpt.SyncOnDemand, accessPermission := ConfigOpt.ReadOnly }

/-- In-memory index `keydir.KeyDir` (a Go map), modelled as an association
list with pairwise-distinct keys; iteration order of a Go map is
unspecified, the list order stands in for one such order. -/
abbrev KeyDir := List (Bytes × KeyDirRec)

/-- Map lookup `rec, isExist := keyDir[key]`. -/
def kdLookup : KeyDir → Bytes → Option KeyDirRec
  | [], _ => none
  | (k, r) :: rest, key => if k = key then some r else kdLookup rest key

/-- Map assignment `keyDir[key] = rec`. -/
def kdSet : KeyDir → Bytes → KeyDirRec → KeyDir
  | [], key, r => [(key, r)]
  | (k, r0) :: rest, key, r =>
    if k = key then (key, r) :: rest else (k, r0) :: kdSet rest key r

/-- Engine state `bitcask.Bitcask` together with the world it owns: the
directory contents and the microsecond clock.  The reader-count/mutex
fields have no effect on sequential behaviour and are omitted. -/
structure Bitcask where
  keyDir : KeyDir
  usrOpts : Options
  activeFile : AppendFile
  fs : FS
  clock : Nat

/-- `Bitcask.Get`: index lookup, then positional read. -/
def Bitcask.Get (b : Bitcask) (key : Bytes) : Except DErr Bytes :=
  match kdLookup b.keyDir key with
  | none => .error (.keyNotExist key)
  | some r => ReadValueFromFile b.fs r.FileId key r.ValuePos r.ValueSize

/-- `Bitcask.Put`: reject read-only handles, take a timestamp, append via
the segment writer, record the `uint32`-truncated position and value size
in the index.  `wfail` injects a failure of the underlying file write, in
which case the index is left unchanged (the writer may still have rolled
over). -/
def Bitcask.Put (b : Bitcask) (wfail : Bool) (key value : Bytes) :
    Except DErr Unit × Bitcask :=
  if b.usrOpts.accessPermission = ConfigOpt.ReadOnly then
    (.error (.requiresWrite "Put"), b)
  else
    let tstamp : Int := (b.clock : Int)
    let clock := b.clock + 1
    match AppendFile.WriteData wfail b.activeFile b.fs clock key value tstamp with
    | (.error e, a, fs, clock) =>
      (.error e, { b with activeFile := a, fs := fs, clock := clock })
    | (.ok n, a, fs, clock) =>
      (.ok (),
       { b with activeFile := a, fs := fs, clock := clock,
                keyDir := kdSet b.keyDir key
                  { FileId := a.fileName, ValuePos := n % 2^32,
                    ValueSize := value.length % 2^32, Tstamp := tstamp } })

/-- `Bitcask.Delete`: reject read-only handles; `Get` first and propagate
its error; otherwise append a tombstone via `Put`, discarding `Put`'s
result, and return success. -/
def Bitcask.Delete (b : Bitcask) (wfail : Bool) (key : Bytes) :
    Except DErr Unit × Bitcask :=
  if b.usrOpts.accessPermission = ConfigOpt.ReadOnly then
    (.error (.requiresWrite "Delete"), b)
  else
    match b.Get key with
    | .error e => (.error e, b)
    | .ok _ =>
      let (_, b1) := b.Put wfail key TompStone
      (.ok (), b1)

/-- `Bitcask.Sync`: reject read-only handles; otherwise fsync the active
segment, which has no observable effect in a model without OS buffers. -/
def Bitcask.Sync (b : Bitcask) : Except DErr Unit × Bitcask :=
  if b.usrOpts.accessPermission = ConfigOpt.ReadOnly then
    (.error (.requiresWrite "Sync"), b)
  else (.ok (), b)

/-- `Bitcask.ListKeys`: the current index keys. -/
def Bitcask.ListKeys (b : Bitcask) : List Bytes := b.keyDir.map Prod.fst

/-- First byte of a directory entry name is not a dot (`fileName[0] != '.'`;
directory entry names are never empty). -/
def firstCharNotDot (s : String) : Bool :=
  match s.data with
  | [] => false
  | c :: _ => c != '.'

/-- `Bitcask.listOldFiles`: directory entries except dot files, the active
segment, and the `keydir` snapshot. -/
def Bitcask.listOldFiles (b : Bitcask) : List String :=
  (fsNames b.fs).filter fun n =>
    firstCharNotDot n && n != b.activeFile.fileName && n != "keydir"

/-- `Bitcask.deleteOldFiles`: remove every listed file. -/
def deleteFiles (fs : FS) (names : List String) : FS := names.foldl fsRemove fs

/-- `Bitcask.mergeWrite`: read the current value of `key` through the
directory manager (a missing map entry yields the zero record, whose
empty `FileId` fails to open), then append a fresh data record and paired
hint record to the merge writer and return the new index entry.  On error
the writer, directory and clock are returned as they stand. -/
def Bitcask.mergeWrite (origKD : KeyDir) (mf : AppendFile) (fs : FS) (clock : Nat)
    (key : Bytes) : Except DErr KeyDirRec × AppendFile × FS × Nat :=
  let r := (kdLookup origKD key).getD { FileId := "", ValuePos := 0, ValueSize := 0, Tstamp := 0 }
  match ReadValueFromFile fs r.FileId key r.ValuePos r.ValueSize with
  | .error e => (.error e, mf, fs, clock)
  | .ok value =>
    let tstamp : Int := (clock : Int)
    match AppendFile.WriteData false mf fs (clock + 1) key value tstamp with
    | (.error e, mf1, fs1, clock1) => (.error e, mf1, fs1, clock1)
    | (.ok n, mf1, fs1, clock1) =>
      let newRec : KeyDirRec :=
        { FileId := mf1.fileName, ValuePos := n % 2^32,
          ValueSize := value.length % 2^32, Tstamp := tstamp }
      let (mf2, fs2) := mf1.WriteHint fs1 key newRec
      (.ok newRec, mf2, fs2, clock1)

/-- Loop body of `Bitcask.Merge` over the entries of the current index:
entries of the active segment are copied unchanged; other entries are
re-read and re-appended, with the not-exist error (tombstone) dropping
the key and any other error aborting the merge. -/
def Bitcask.mergeLoop (origKD : KeyDir) (activeName : String) :
    List (Bytes × KeyDirRec) → KeyDir → AppendFile → FS → Nat →
    Except DErr Unit × KeyDir × AppendFile × FS × Nat
  | [], newKD, mf, fs, clock => (.ok (), newKD, mf, fs, clock)
  | (key, r) :: rest, newKD, mf, fs, clock =>
    if r.FileId ≠ activeName then
      match Bitcask.mergeWrite origKD mf fs clock key with
      | (.error e, mf1, fs1, clock1) =>
        if e.isKeyNotExist then
          Bitcask.mergeLoop origKD activeName rest newKD mf1 fs1 clock1
        else (.error e, newKD, mf1, fs1, clock1)
      | (.ok newRec, mf1, fs1, clock1) =>
        Bitcask.mergeLoop origKD activeName rest (kdSet newKD key newRec) mf1 fs1 clock1
    else
      Bitcask.mergeLoop origKD activeName rest (kdSet newKD key r) mf fs clock

/-- `Bitcask.Merge`: reject read-only handles; list the old files (all
non-dot files except the active segment and the keydir snapshot); run the
merge loop from a fresh merge-mode writer and an empty index; on success
swap the index and delete the old files, on error keep the old index and
delete nothing. -/
def Bitcask.Merge (b : Bitcask) : Except DErr Unit × Bitcask :=
  if b.usrOpts.accessPermission = ConfigOpt.ReadOnly then
    (.error (.requiresWrite "Merge"), b)
  else
    let oldFiles := b.listOldFiles
    match Bitcask.mergeLoop b.keyDir b.activeFile.fileName b.keyDir []
        (NewAppendFile AppendType.merge) b.fs b.clock with
    | (.error e, _, _, fs, clock) => (.error e, { b with fs := fs, clock := clock })
    | (.ok _, newKD, _, fs, clock) =>
      (.ok (), { b with keyDir := newKD, fs := deleteFiles fs oldFiles, clock := clock })

/-- `bitcask.Open` on a missing directory with `ReadWrite`: empty
directory and index, an active-mode writer with no file yet. -/
def openFreshRW : Bitcask :=
  { keyDir := [], usrOpts := parseUsrOpts [ConfigOpt.ReadWrite],
    activeFile := NewAppendFile AppendType.active, fs := [], clock := 0 }

/-- One engine operation of a session on a read-write handle.  `Get`,
`ListKeys` and `Fold` only read (`Fold` performs a `Get` per key), `Sync`
fsyncs; none of them change the model state. -/
inductive Op where
  | put (key value : Bytes) : Op
  | delete (key : Bytes) : Op
  | get (key : Bytes) : Op
  | listKeys : Op
  | sync : Op
  | merge : Op

/-- Execute one operation (healthy I/O). -/
def execOp (b : Bitcask) : Op → Bitcask
  | .put k v => (b.Put false k v).2
  | .delete k => (b.Delete false k).2
  | .get _ => b
  | .listKeys => b
  | .sync => b.Sync.2
  | .merge => b.Merge.2

/-- Execute a sequence of operations left to right. -/
def execOps (b : Bitcask) (ops : List Op) : Bitcask := ops.foldl execOp b

/-- Size bounds under which the record format is faithful, used as a
hypothesis on `put` operations: the `uint16` key-size field together with
the decoder's `uint16` offset arithmetic requires `18 + |key| < 2^16`,
and the `uint32` value-size and record-length arithmetic requires
`18 + |key| + |value| < 2^32`. -/
def OpWF : Op → Prop
  | .put k v => 18 + k.length < 2^16 ∧ 18 + k.length + v.length < 2^32
  | .delete k => 18 + k.length < 2^16
  | _ => True

/-- Comparison `keydirStat.ModTime().Before(dataStoreStat.ModTime())` in
`keydir.isOld`, with modification times as naturals. -/
def isOld (dataStoreMtime keydirMtime : Nat) : Bool := keydirMtime < dataStoreMtime

/-- Decision of `keydir.keyDirFileBuild`: the persisted snapshot is decoded
and used exactly when the `keydir` file exists (reading it did not fail
with not-exist) and `isOld` returned true without error; otherwise the
index is built from the segment files. -/
def keyDirFileBuildUses (keydirFile : Option Bytes) (dataStoreMtime keydirMtime : Nat) : Bool :=
  match keydirFile with
  | none => false
  | some _ => isOld dataStoreMtime keydirMtime

/-- Go `strconv.ParseUint(s, 10, 64)` with the error discarded, as in
`CompressKeyDirRec`: 0 when `s` is empty or contains a non-digit (syntax
error), the maximum `uint64` when the digits overflow 64 bits. -/
def goParseUint64 (s : String) : Nat :=
  if s.data ≠ [] ∧ s.data.all (fun c => 48 ≤ c.toNat && c.toNat ≤ 57) then
    if decValue s.data < 2^64 then decValue s.data else 2^64 - 1
  else 0

/-- Go `strconv.FormatUint(n, 10)`. -/
def goFormatUint (n : Nat) : String := String.mk (decRepr n)

/-- Header length of keydir snapshot records (`keyDirFileHdr = 26`). -/
def keyDirFileHdr : Nat := 26

/-- Encoder `recfmt.CompressKeyDirRec`: `ParseUint` of the textual
`FileId` (error ignored) as 8 bytes, key size (2), value size (4), value
position (4), timestamp (8), key, at offsets 0/8/10/14/18/26. -/
def CompressKeyDirRec (key : Bytes) (r : KeyDirRec) : Bytes :=
  u64le (goParseUint64 r.FileId) ++ u16le key.length ++ u32le r.ValueSize ++
  u32le r.ValuePos ++ u64le (int64Bits r.Tstamp) ++ key

/-- Decoder `recfmt.ExtractKeyDirRec`; `keySize + 26` is a `uint16`
addition in the source, and the key slice panics (`none`) when it
wraps. -/
def ExtractKeyDirRec (buf : Bytes) : Option (Bytes × KeyDirRec × Nat) :=
  let fileId := goFormatUint (readU64 buf 0)
  let keySize := readU16 buf 8
  let valueSize := readU32 buf 10
  let valuePos := readU32 buf 14
  let tstamp := readU64 buf 18
  match goSlice buf 26 ((keySize + 26) % 2^16) with
  | none => none
  | some key =>
    some (key, { FileId := fileId, ValuePos := valuePos, ValueSize := valueSize,
                 Tstamp := int64OfBits tstamp }, keyDirFileHdr + keySize)

/-- Underlying-file behaviour for the safe-I/O wrappers: call index to
(bytes transferred, errored). -/
def sioAlwaysFail : Nat → Nat × Bool := fun _ => (0, true)

/-- Retry loop of `sio.File.ReadAt` after the initial call, transcribed
from the source: `for i := n; err != nil; i += n { if attempts ==
maxAttempts { return 0, err }; off += int64(i); n, err = ReadAt(b[i:],
off) }`.  The `attempts` counter is never incremented in the source.
`none` means the loop is still running after `fuel` iterations; `some`
is the function's return value. -/
def readAtAux (oracle : Nat → Nat × Bool) (bufLen : Nat) :
    Nat → Nat → Int → Nat → Nat → Bool → Nat → Option (Except Unit Nat)
  | _, _, _, _, _, false, _ => some (.ok bufLen)
  | 0, _, _, _, _, true, _ => none
  | fuel+1, i, off, attempts, _, true, k =>
    if attempts = 5 then some (.error ())
    else
      let off1 := off + (i : Int)
      let r := oracle k
      readAtAux oracle bufLen fuel (i + r.1) off1 attempts r.1 r.2 (k+1)

/-- `sio.File.ReadAt`: one initial underlying call, then the retry loop. -/
def sioReadAt (oracle : Nat → Nat × Bool) (bufLen : Nat) (off : Int) (fuel : Nat) :
    Option (Except Unit Nat) :=
  let r := oracle 0
  readAtAux oracle bufLen fuel r.1 off 0 r.1 r.2 1

/-- Retry loop of `sio.File.Write`, transcribed from the source; here
`attempts` is incremented after each retry. -/
def writeAux (oracle : Nat → Nat × Bool) (bufLen : Nat) :
    Nat → Nat → Nat → Nat → Bool → Nat → Option (Except Unit Nat)
  | _, _, _, _, false, _ => some (.ok bufLen)
  | 0, _, _, _, true, _ => none
  | fuel+1, i, attempts, _, true, k =>
    if attempts = 5 then some (.error ())
    else
      let r := oracle k
      writeAux oracle bufLen fuel (i + r.1) (attempts + 1) r.1 r.2 (k+1)

/-- `sio.File.Write`: one initial underlying call, then the retry loop. -/
def sioWrite (oracle : Nat → Nat × Bool) (bufLen : Nat) (fuel : Nat) :
    Option (Except Unit Nat) :=
  let r := oracle 0
  writeAux oracle bufLen fuel r.1 0 r.1 r.2 1

/-- Read-only engine state over a one-segment directory, for the C7
witness (`Open` with no options defaults to read-only). -/
def roState : Bitcask :=
  { keyDir := [], usrOpts := parseUsrOpts [],
    activeFile := NewAppendFile AppendType.active,
    fs := [("1.data", [])], clock := 0 }

/-- Read-write engine state holding one live key (byte 107), for the C10
witness. -/
def putOneState : Bitcask := execOps openFreshRW [Op.put [107] [118]]

/-- One directory evolves from another by only creating files and
appending to existing files: every old file still exists, has not
shrunk, and agrees with its old contents on every slice of them. -/
def fsExtends (fs' fs : FS) : Prop :=
  ∀ name c, fsGet fs name = some c →
    ∃ c', fsGet fs' name = some c' ∧ c.length ≤ c'.length ∧
      ∀ p n, p + n ≤ c.length → (c'.drop p).take n = (c.drop p).take n

/-- The file named by `r` holds, at `r.ValuePos`, exactly the encoded data
record for `key` with value `v` (some timestamp), within bounds under
which the codec is faithful, and `r.ValueSize` is the value's length. -/
def containsRecVal (fs : FS) (key : Bytes) (r : KeyDirRec) (v : Bytes) : Prop :=
  ∃ content t,
    fsGet fs r.FileId = some content ∧
    r.ValueSize = v.length ∧
    18 + key.length < 2^16 ∧
    18 + key.length + v.length < 2^32 ∧
    r.ValuePos + (18 + key.length + v.length) ≤ content.length ∧
    (content.drop r.ValuePos).take (18 + key.length + v.length) = CompressDataFileRec key v t

/-- The entry points at a valid record for some value. -/
def containsRec (fs : FS) (key : Bytes) (r : KeyDirRec) : Prop :=
  ∃ v, containsRecVal fs key r v

/-- Size invariant of a file written by the segment writer: within the
maximum segment size, or a single record whose encoded length alone
exceeds it. -/
def fileSizeOK (content : Bytes) : Prop :=
  content.length ≤ maxFileSize ∨
  ∃ k v t, content = CompressDataFileRec k v t ∧ content.length > maxFileSize

/-- Invariant tying a segment writer to the directory and the clock: the
open file exists and the write offset is its length; position and size
agree; and every existing file name was minted from an earlier clock
value, so future names are fresh. -/
structure WriterInv (a : AppendFile) (fs : FS) (clock : Nat) : Prop where
  act : a.hasFile = true → ∃ c, fsGet fs a.fileName = some c ∧ c.length = a.currentPos
  pos_size : a.currentPos = a.currentSize
  fresh : ∀ name, name ∈ fsNames fs → ∀ u, clock ≤ u →
    name ≠ mkName u ".data" ∧ name ≠ mkName u ".hint"

/-- Clock-threaded run of a sequence of `WriteData` calls against one
segment writer, as the engine's `Put` drives it: each call takes a fresh
timestamp and passes the advanced clock on for possible rollover. -/
def execWrites : AppendFile → FS → Nat → List (Bytes × Bytes) → AppendFile × FS × Nat
  | a, _fs, clock, [] => (a, _fs, clock)
  | a, fs, clock, (k, v) :: rest =>
    match AppendFile.WriteData false a fs (clock + 1) k v (clock : Int) with
    | (_, a1, fs1, clock1) => execWrites a1 fs1 clock1 rest

/-- Engine invariant: the active writer satisfies the writer invariant, is
in active mode, the index has pairwise-distinct keys, and every index
entry points at a valid encoded record in an existing file. -/
structure EInv (b : Bitcask) : Prop where
  winv : WriterInv b.activeFile b.fs b.clock
  atype : b.activeFile.appendType = AppendType.active
  nodup : (b.keyDir.map Prod.fst).Nodup
  kd : ∀ key r, kdLookup b.keyDir key = some r → containsRec b.fs key r

/-- Invariant of the merge loop relative to the pre-merge directory `fs0`
and clock `clock0`: the merge writer is valid, in merge mode, its file
names were minted during the merge; the pre-merge files are untouched;
and every file is either pre-merge or a merge-minted name. -/
structure MInv (fs0 : FS) (clock0 : Nat) (mf : AppendFile) (fs : FS) (clock : Nat) : Prop where
  winv : WriterInv mf fs clock
  mtype : mf.appendType = AppendType.merge
  mnames : mf.hasFile = true → ∃ u, clock0 ≤ u ∧ u < clock ∧
    mf.fileName = mkName u ".data" ∧ mf.hintName = mkName u ".hint"
  clk : clock0 ≤ clock
  fs0pres : ∀ name, name ∈ fsNames fs0 → fsGet fs name = fsGet fs0 name
  cls : ∀ name, name ∈ fsNames fs → name ∈ fsNames fs0 ∨
    ∃ u, clock0 ≤ u ∧ u < clock ∧ (name = mkName u ".data" ∨ name = mkName u ".hint")

/-- The operation writes the index entry of `k`: a Put or a Delete of `k`. -/
def touchesKey (k : Bytes) : Op → Bool
  | .put k' _ => decide (k' = k)
  | .delete k' => decide (k' = k)
  | _ => false

/-- The operation is a Put of `k`. -/
def putsKey (k : Bytes) : Op → Bool
  | .put k' _ => decide (k' = k)
  | _ => false

set_option maxRecDepth 10000

theorem length_u16le (n : Nat) : (u16le n).length = 2 := rfl

theorem length_u32le (n : Nat) : (u32le n).length = 4 := rfl

theorem length_u64le (n : Nat) : (u64le n).length = 8 := rfl

theorem crcStep_lt (c : Nat) (h : c < 2^32) : crcStep c < 2^32 := by
  unfold crcStep
  split
  · exact Nat.xor_lt_two_pow (by omega) (by norm_num)
  · omega

theorem crcByte_lt (c b : Nat) (h : c < 2^32) : crcByte c b < 2^32 := by
  unfold crcByte
  have h0 : c ^^^ b % 256 < 2^32 := Nat.xor_lt_two_pow h (by omega)
  exact crcStep_lt _ (crcStep_lt _ (crcStep_lt _ (crcStep_lt _ (crcStep_lt _
    (crcStep_lt _ (crcStep_lt _ (crcStep_lt _ h0)))))))

theorem crc32_lt (data : Bytes) : crc32 data < 2^32 := by
  unfold crc32
  have : ∀ l c, c < 2^32 → List.foldl crcByte c l < 2^32 := by
    intro l
    induction l with
    | nil => intro c hc; simpa using hc
    | cons x xs ih => intro c hc; exact ih _ (crcByte_lt _ _ hc)
  exact Nat.xor_lt_two_pow (this _ _ (by norm_num)) (by norm_num)

theorem int64Bits_lt (t : Int) : int64Bits t < 2^64 := by
  unfold int64Bits
  omega

theorem int64OfBits_int64Bits (t : Int) (h1 : -2^63 ≤ t) (h2 : t < 2^63) :
    int64OfBits (int64Bits t) = t := by
  unfold int64OfBits int64Bits
  split <;> omega

theorem byteAt_append (l1 l2 : Bytes) (i : Nat) :
    byteAt (l1 ++ l2) (l1.length + i) = byteAt l2 i := by
  simp [byteAt, List.getD, List.getElem?_append_right]

theorem readU16_append (l1 l2 : Bytes) (i : Nat) :
    readU16 (l1 ++ l2) (l1.length + i) = readU16 l2 i := by
  simp [readU16, Nat.add_assoc, byteAt_append]

theorem readU32_append (l1 l2 : Bytes) (i : Nat) :
    readU32 (l1 ++ l2) (l1.length + i) = readU32 l2 i := by
  simp [readU32, Nat.add_assoc, byteAt_append]

theorem readU64_append (l1 l2 : Bytes) (i : Nat) :
    readU64 (l1 ++ l2) (l1.length + i) = readU64 l2 i := by
  simp [readU64, Nat.add_assoc, byteAt_append]

theorem readU16_u16le (n : Nat) (r : Bytes) : readU16 (u16le n ++ r) 0 = n % 2^16 := by
  show n % 2^8 + 2^8 * (n / 2^8 % 2^8) = n % 2^16
  omega

theorem readU32_u32le (n : Nat) (r : Bytes) : readU32 (u32le n ++ r) 0 = n % 2^32 := by
  show n % 2^8 + 2^8 * (n / 2^8 % 2^8) + 2^16 * (n / 2^16 % 2^8) + 2^24 * (n / 2^24 % 2^8)
      = n % 2^32
  omega

theorem readU64_u64le (n : Nat) (r : Bytes) : readU64 (u64le n ++ r) 0 = n % 2^64 := by
  show n % 2^8 + 2^8 * (n / 2^8 % 2^8) + 2^16 * (n / 2^16 % 2^8) + 2^24 * (n / 2^24 % 2^8) +
      2^32 * (n / 2^32 % 2^8) + 2^40 * (n / 2^40 % 2^8) + 2^48 * (n / 2^48 % 2^8) +
      2^56 * (n / 2^56 % 2^8) = n % 2^64
  omega

theorem drop_append_of_length (l1 l2 : Bytes) (n : Nat) (h : l1.length = n) :
    (l1 ++ l2).drop n = l2 := by
  subst h; exact List.drop_left l1 l2

theorem compress_eq_header_append (key value : Bytes) (t : Int) :
    CompressDataFileRec key value t =
      (u32le (crc32 (u64le (int64Bits t) ++ u16le key.length ++ u32le value.length ++ key ++ value)) ++
       u64le (int64Bits t) ++ u16le key.length ++ u32le value.length) ++ (key ++ value) := by
  simp [CompressDataFileRec, List.append_assoc]

theorem length_compress (key value : Bytes) (t : Int) :
    (CompressDataFileRec key value t).length = 18 + key.length + value.length := by
  simp [CompressDataFileRec, u16le, u32le, u64le]
  omega

theorem extract_compress (key value : Bytes) (t : Int)
    (hk : 18 + key.length < 2^16) (hv : 18 + key.length + value.length < 2^32) :
    ExtractDataFileRec (CompressDataFileRec key value t) =
      .ok (⟨key, value, int64OfBits (int64Bits t), key.length, value.length⟩,
           18 + key.length + value.length) := by
  have hkl : key.length < 2^16 := by omega
  have hvl : value.length < 2^32 := by omega
  set body := u64le (int64Bits t) ++ u16le key.length ++ u32le value.length ++ key ++ value
    with hbody
  set B := CompressDataFileRec key value t with hB
  have hBdef : B = u32le (crc32 body) ++ body := by
    rw [hB, hbody]; rfl
  have hlenB : B.length = 18 + key.length + value.length := length_compress key value t
  have hlenbody : body.length = 14 + key.length + value.length := by
    rw [hbody]; simp [u16le, u32le, u64le]; omega
  -- field reads
  have h1 : readU32 B 0 = crc32 body := by
    rw [hBdef, readU32_u32le]
    exact Nat.mod_eq_of_lt (crc32_lt body)
  have h2 : readU64 B 4 = int64Bits t := by
    rw [hBdef, hbody]
    have : (4 : Nat) = (u32le (crc32 body)).length + 0 := by simp [u32le]
    rw [this, readU64_append, List.append_assoc, List.append_assoc, List.append_assoc,
      readU64_u64le]
    exact Nat.mod_eq_of_lt (int64Bits_lt t)
  have h3 : readU16 B 12 = key.length := by
    rw [hBdef, hbody]
    rw [show u32le (crc32 body) ++ (u64le (int64Bits t) ++ u16le key.length ++
        u32le value.length ++ key ++ value) =
        (u32le (crc32 body) ++ u64le (int64Bits t)) ++
        (u16le key.length ++ (u32le value.length ++ (key ++ value))) by
      simp [List.append_assoc]]
    have : (12 : Nat) = (u32le (crc32 body) ++ u64le (int64Bits t)).length + 0 := by
      simp [u32le, u64le]
    rw [this, readU16_append, readU16_u16le]
    exact Nat.mod_eq_of_lt hkl
  have h4 : readU32 B 14 = value.length := by
    rw [hBdef, hbody]
    rw [show u32le (crc32 body) ++ (u64le (int64Bits t) ++ u16le key.length ++
        u32le value.length ++ key ++ value) =
        (u32le (crc32 body) ++ u64le (int64Bits t) ++ u16le key.length) ++
        (u32le value.length ++ (key ++ value)) by
      simp [List.append_assoc]]
    have : (14 : Nat) = (u32le (crc32 body) ++ u64le (int64Bits t) ++ u16le key.length).length + 0 := by
      simp [u32le, u64le, u16le]
    rw [this, readU32_append, readU32_u32le]
    exact Nat.mod_eq_of_lt hvl
  -- drops
  have hdrop18 : B.drop 18 = key ++ value := by
    rw [hB, compress_eq_header_append]
    apply drop_append_of_length
    simp [u32le, u64le, u16le]
  have hdrop4 : B.drop 4 = body := by
    rw [hBdef]
    apply drop_append_of_length
    simp [u32le]
  -- slices
  have hs1 : goSlice B 18 ((18 + key.length) % 2^16) = some key := by
    rw [Nat.mod_eq_of_lt hk]
    unfold goSlice
    rw [if_pos (by omega)]
    rw [hdrop18]
    congr 1
    rw [Nat.add_sub_cancel_left]
    exact List.take_left key value
  have hs2 : goSlice B ((18 + key.length) % 2^16)
      (((18 + key.length) % 2^16 + value.length) % 2^32) = some value := by
    rw [Nat.mod_eq_of_lt hk, Nat.mod_eq_of_lt (by omega)]
    unfold goSlice
    rw [if_pos (by omega)]
    have : B.drop (18 + key.length) = value := by
      rw [← List.drop_drop, hdrop18]
      exact List.drop_left key value
    rw [this]
    congr 1
    rw [Nat.add_sub_cancel_left]
    exact List.take_length value
  have hs3 : goSlice B 4 ((18 + key.length + value.length) % 2^32) = some body := by
    rw [Nat.mod_eq_of_lt hv]
    unfold goSlice
    rw [if_pos (by omega)]
    rw [hdrop4]
    congr 1
    apply List.take_of_length_le
    omega
  -- assemble
  show ExtractDataFileRec B = _
  unfold ExtractDataFileRec
  simp only [h1, h2, h3, h4, hs1, hs2, hs3]
  rw [if_pos trivial]
  have hlen' : (18 + value.length + key.length) % 2^32 = 18 + key.length + value.length := by
    omega
  rw [hlen']

theorem digitChar_toNat (d : Nat) (h : d < 10) : (digitChar d).toNat = 48 + d := by
  have hv : (48 + d).isValidChar := Or.inl (by omega)
  simp [digitChar, Char.ofNat, Char.toNat, hv, Char.ofNatAux, UInt32.toNat, BitVec.toNat_ofNatLt]

theorem decValue_append_digit (l : List Char) (c : Char) :
    decValue (l ++ [c]) = 10 * decValue l + (c.toNat - 48) := by
  simp [decValue]

theorem decValue_decReprAux (fuel : Nat) : ∀ n, n < 10 ^ fuel →
    decValue (decReprAux fuel n) = n := by
  induction fuel with
  | zero =>
    intro n h
    simp at h
    simp [h, decReprAux, decValue]
  | succ fuel ih =>
    intro n h
    unfold decReprAux
    split
    · rename_i h10
      simp [decValue, digitChar_toNat n h10]
    · rename_i h10
      rw [decValue_append_digit, ih (n / 10) (by
        rw [pow_succ, Nat.mul_comm] at h
        exact Nat.div_lt_of_lt_mul h), digitChar_toNat (n % 10) (Nat.mod_lt n (by omega))]
      omega

theorem lt_ten_pow_succ (n : Nat) : n < 10 ^ (n + 1) := by
  calc n < 2 ^ n * 1 := by have := Nat.lt_two_pow n; omega
  _ ≤ 10 ^ n * 10 := Nat.mul_le_mul (Nat.pow_le_pow_left (by norm_num) n) (by norm_num)
  _ = 10 ^ (n + 1) := by ring

theorem decValue_decRepr (n : Nat) : decValue (decRepr n) = n :=
  decValue_decReprAux (n + 1) n (lt_ten_pow_succ n)

theorem decRepr_inj {m n : Nat} (h : decRepr m = decRepr n) : m = n := by
  rw [← decValue_decRepr m, h, decValue_decRepr]

theorem mkName_inj {t u : Nat} {ext : String} (h : mkName t ext = mkName u ext) : t = u := by
  unfold mkName at h
  injection h with h
  exact decRepr_inj (List.append_cancel_right h)

theorem mkName_data_ne_hint (t u : Nat) : mkName t ".data" ≠ mkName u ".hint" := by
  unfold mkName
  intro h
  injection h with h
  have ha : (decRepr t ++ ".data".data).getLast? = some 'a' := by
    rw [show (".data".data : List Char) = ['.', 'd', 'a', 't', 'a'] from rfl]
    simp
  have hb : (decRepr u ++ ".hint".data).getLast? = some 't' := by
    rw [show (".hint".data : List Char) = ['.', 'h', 'i', 'n', 't'] from rfl]
    simp
  rw [h, hb] at ha
  simp at ha

theorem readAtAux_alwaysFail (bufLen : Nat) : ∀ fuel i off n k,
    readAtAux sioAlwaysFail bufLen fuel i off 0 n true k = none := by
  intro fuel
  induction fuel with
  | zero => intro i off n k; rfl
  | succ fuel ih =>
    intro i off n k
    unfold readAtAux
    rw [if_neg (by omega)]
    exact ih _ _ _ _

/-- C8: the safe-I/O wrappers do not behave as claimed.  On a file whose
reads persistently fail, `sio.File.ReadAt` never terminates — its
`attempts` counter is never incremented, so the retry loop can neither
give up nor return (left conjunct: still looping after any number of
iterations).  `sio.File.Write` does give up, but only after six failed
underlying calls (the initial call plus five retries), not five (right
conjunct). -/
theorem C8_sio_retry_diverges :
    (∀ fuel off bufLen, sioReadAt sioAlwaysFail bufLen off fuel = none) ∧
    sioWrite sioAlwaysFail 100 6 = some (.error ()) ∧
    sioWrite sioAlwaysFail 100 5 = none := by
  exact ⟨fun fuel off bufLen => readAtAux_alwaysFail bufLen fuel _ _ _ _, rfl, rfl⟩

/-- C2: the snapshot decision is inverted in the code.  With the keydir
modification time equal to the directory's (a snapshot at least as new as
the directory) the snapshot is ignored, and with the keydir strictly
older than the directory the snapshot is used: `keyDirFileBuild` proceeds
when `isOld` reports the snapshot as old, the opposite of the spec. -/
theorem C2_keydir_decision_inverted :
    keyDirFileBuildUses (some []) 5 5 = false ∧
    keyDirFileBuildUses (some []) 5 3 = true := by
  decide

/-- C4: the keydir snapshot codec loses the file identity.  For the key
"k" (byte 107) and an entry whose `FileId` names the segment file
"1.data", `CompressKeyDirRec` parses `FileId` with `strconv.ParseUint`
and ignores the error, persisting file id 0; decoding returns the entry
with `FileId = "0"`, which is not the name of the original segment file
(all other fields round-trip). -/
theorem C4_keydir_file_id_lost :
    ExtractKeyDirRec (CompressKeyDirRec [107]
        { FileId := "1.data", ValuePos := 7, ValueSize := 3, Tstamp := 5 }) =
      some ([107], { FileId := "0", ValuePos := 7, ValueSize := 3, Tstamp := 5 }, 27) ∧
    ("0" : String) ≠ "1.data" :=
  ⟨rfl, by decide⟩

theorem readU16_compress_12 (key value : Bytes) (t : Int) :
    readU16 (CompressDataFileRec key value t) 12 = key.length % 2^16 := by
  unfold CompressDataFileRec
  generalize crc32 _ = c
  rw [show u32le c ++ (u64le (int64Bits t) ++ u16le key.length ++ u32le value.length ++ key ++ value) =
      (u32le c ++ u64le (int64Bits t)) ++
      (u16le key.length ++ (u32le value.length ++ (key ++ value))) by
    simp [List.append_assoc]]
  rw [show (12 : Nat) = (u32le c ++ u64le (int64Bits t)).length + 0 by simp [u32le, u64le]]
  rw [readU16_append, readU16_u16le]

theorem extract_sliceBounds (buf : Bytes) (h : (18 + readU16 buf 12) % 2^16 < 18) :
    ExtractDataFileRec buf = .error .sliceBounds := by
  unfold ExtractDataFileRec
  have hg : goSlice buf 18 ((18 + readU16 buf 12) % 2^16) = none := by
    unfold goSlice
    rw [if_neg (fun hc => absurd hc.1 (by omega))]
  simp only [hg]

/-- C5 as stated is false: a key of length 65518 (within the claimed bound
2^16 − 1 = 65535) makes the decoder fail.  The decoded key-size field is
65518, and the Go expression `buf[DataFileRecHdr : DataFileRecHdr+keySize]`
computes its upper bound in `uint16` arithmetic, wrapping to 0, so the
slice panics instead of returning the record. -/
theorem C5_counterexample :
    ExtractDataFileRec (CompressDataFileRec (List.replicate 65518 97) [] 0) =
      .error .sliceBounds := by
  apply extract_sliceBounds
  simp only [readU16_compress_12, List.length_replicate]
  norm_num

/-- C5 (amended): the data-record codec round-trips whenever the decoder's
16-bit offset arithmetic cannot wrap, i.e. for keys with
18 + |key| ≤ 2^16 − 1 and values with 18 + |key| + |value| ≤ 2^32 − 1,
and any `int64` timestamp: decoding the encoded buffer succeeds (the CRC
computed over the checksummed region matches the stored one) and returns
exactly the original key, value and timestamp, with the reported record
length 18 + |key| + |value|. -/
theorem C5_data_record_roundtrip (key value : Bytes) (t : Int)
    (hk : 18 + key.length < 2^16) (hv : 18 + key.length + value.length < 2^32)
    (ht1 : -2^63 ≤ t) (ht2 : t < 2^63) :
    ExtractDataFileRec (CompressDataFileRec key value t) =
      .ok (⟨key, value, t, key.length, value.length⟩,
           18 + key.length + value.length) := by
  rw [extract_compress key value t hk hv, int64OfBits_int64Bits t ht1 ht2]

/-- C5 witness: the round-trip theorem applied at key "k" (byte 107),
value byte 118, timestamp 5. -/
theorem C5_data_record_roundtrip_witness :
    ExtractDataFileRec (CompressDataFileRec [107] [118] 5) =
      .ok (⟨[107], [118], 5, 1, 1⟩, 20) :=
  C5_data_record_roundtrip [107] [118] 5 (by norm_num) (by norm_num)
    (by norm_num) (by norm_num)

/-- C7: on a handle opened read-only, Put, Delete, Merge and Sync each
return the require-write error for their operation name and return the
engine state unchanged (same index, same directory contents). -/
theorem C7_readonly_rejects (b : Bitcask) (key value : Bytes) (wfail : Bool)
    (h : b.usrOpts.accessPermission = ConfigOpt.ReadOnly) :
    b.Put wfail key value = (.error (.requiresWrite "Put"), b) ∧
    b.Delete wfail key = (.error (.requiresWrite "Delete"), b) ∧
    b.Merge = (.error (.requiresWrite "Merge"), b) ∧
    b.Sync = (.error (.requiresWrite "Sync"), b) := by
  unfold Bitcask.Put Bitcask.Delete Bitcask.Merge Bitcask.Sync
  simp [h]

/-- C7 witness: the rejection theorem applied to a concrete read-only
state. -/
theorem C7_readonly_rejects_witness :
    roState.Put false [107] [118] = (.error (.requiresWrite "Put"), roState) ∧
    roState.Delete false [107] = (.error (.requiresWrite "Delete"), roState) ∧
    roState.Merge = (.error (.requiresWrite "Merge"), roState) ∧
    roState.Sync = (.error (.requiresWrite "Sync"), roState) :=
  C7_readonly_rejects roState [107] [118] false rfl

/-- C10: Delete's result depends only on the preceding Get.  On a
read-write handle, if Get currently succeeds for `key`, then Delete
returns success whether or not the underlying append of the tombstone
record fails: the source discards `b.Put(key, TompStone)`'s error. -/
theorem C10_delete_ignores_append_failure (b : Bitcask) (key v : Bytes) (wfail : Bool)
    (hrw : ¬ b.usrOpts.accessPermission = ConfigOpt.ReadOnly)
    (hget : b.Get key = .ok v) :
    (b.Delete wfail key).1 = .ok () := by
  unfold Bitcask.Delete
  rw [if_neg hrw, hget]

/-- C10 witness: Delete succeeds on the live key both when the tombstone
append fails and when it succeeds. -/
theorem C10_delete_ignores_append_failure_witness :
    (putOneState.Delete true [107]).1 = .ok () ∧
    (putOneState.Delete false [107]).1 = .ok () :=
  ⟨C10_delete_ignores_append_failure putOneState [107] [118] true (by decide) rfl,
   C10_delete_ignores_append_failure putOneState [107] [118] false (by decide) rfl⟩

theorem fsGet_cons (n : String) (c : Bytes) (rest : FS) (name : String) :
    fsGet ((n, c) :: rest) name = if n = name then some c else fsGet rest name := rfl

theorem fsGet_fsSet_self (fs : FS) (name : String) (b : Bytes) :
    fsGet (fsSet fs name b) name = some b := by
  induction fs with
  | nil => simp [fsSet, fsGet]
  | cons p rest ih =>
    obtain ⟨n, c⟩ := p
    simp only [fsSet]
    split_ifs with hn
    · simp [fsGet_cons]
    · rw [fsGet_cons, if_neg hn, ih]

theorem fsGet_fsSet_ne (fs : FS) (name name' : String) (b : Bytes) (h : name' ≠ name) :
    fsGet (fsSet fs name b) name' = fsGet fs name' := by
  induction fs with
  | nil =>
    show fsGet [(name, b)] name' = none
    rw [fsGet_cons, if_neg (fun hc => h hc.symm)]
    rfl
  | cons p rest ih =>
    obtain ⟨n, c⟩ := p
    simp only [fsSet]
    split_ifs with hn
    · subst hn
      rw [fsGet_cons, fsGet_cons, if_neg (fun hc => h hc.symm), if_neg (fun hc => h hc.symm)]
    · rw [fsGet_cons, fsGet_cons, ih]

theorem fsNames_fsSet_sub (fs : FS) (name : String) (b : Bytes) :
    ∀ n, n ∈ fsNames (fsSet fs name b) → n = name ∨ n ∈ fsNames fs := by
  induction fs with
  | nil => intro n hn; simpa [fsSet, fsNames] using hn
  | cons p rest ih =>
    obtain ⟨m, c⟩ := p
    intro n hn
    simp only [fsSet] at hn
    split_ifs at hn with hm
    · simp only [fsNames, List.map_cons, List.mem_cons] at hn ⊢
      rcases hn with h | h
      · exact Or.inl h
      · exact Or.inr (Or.inr h)
    · simp only [fsNames, List.map_cons, List.mem_cons] at hn ⊢
      rcases hn with h | h
      · exact Or.inr (Or.inl h)
      · rcases ih n h with h1 | h1
        · exact Or.inl h1
        · exact Or.inr (Or.inr h1)

theorem fsGet_mem_names (fs : FS) (name : String) (c : Bytes) (h : fsGet fs name = some c) :
    name ∈ fsNames fs := by
  induction fs with
  | nil => simp [fsGet] at h
  | cons p rest ih =>
    obtain ⟨m, d⟩ := p
    rw [fsGet_cons] at h
    simp only [fsNames, List.map_cons, List.mem_cons]
    split_ifs at h with hm
    · exact Or.inl hm.symm
    · exact Or.inr (ih h)

theorem fsGet_of_not_mem (fs : FS) (name : String) (h : name ∉ fsNames fs) :
    fsGet fs name = none := by
  induction fs with
  | nil => rfl
  | cons p rest ih =>
    obtain ⟨m, d⟩ := p
    simp only [fsNames, List.map_cons, List.mem_cons] at h
    push_neg at h
    rw [fsGet_cons, if_neg (fun hc => h.1 hc.symm)]
    exact ih h.2

theorem fsGet_fsRemove_ne (fs : FS) (name n : String) (h : n ≠ name) :
    fsGet (fsRemove fs name) n = fsGet fs n := by
  induction fs with
  | nil => rfl
  | cons p rest ih =>
    obtain ⟨m, c⟩ := p
    simp only [fsRemove, List.filter_cons]
    split_ifs with hd
    · rw [fsGet_cons, fsGet_cons]
      split_ifs with hm
      · rfl
      · exact ih
    · simp only [decide_not, Bool.not_eq_true', decide_eq_false_iff_not, not_not] at hd
      subst hd
      rw [fsGet_cons, if_neg (fun hc => h hc.symm)]
      exact ih

theorem fsGet_deleteFiles_ne (names : List String) : ∀ (fs : FS) (n : String),
    n ∉ names → fsGet (deleteFiles fs names) n = fsGet fs n := by
  induction names with
  | nil => intro fs n _; rfl
  | cons m rest ih =>
    intro fs n hn
    simp only [List.mem_cons] at hn
    push_neg at hn
    show fsGet (deleteFiles (fsRemove fs m) rest) n = fsGet fs n
    rw [ih (fsRemove fs m) n hn.2, fsGet_fsRemove_ne fs m n hn.1]

theorem kdLookup_cons (k : Bytes) (r : KeyDirRec) (rest : KeyDir) (key : Bytes) :
    kdLookup ((k, r) :: rest) key = if k = key then some r else kdLookup rest key := rfl

theorem kdLookup_kdSet_self (kd : KeyDir) (key : Bytes) (r : KeyDirRec) :
    kdLookup (kdSet kd key r) key = some r := by
  induction kd with
  | nil => simp [kdSet, kdLookup]
  | cons p rest ih =>
    obtain ⟨k, r0⟩ := p
    simp only [kdSet]
    split_ifs with hk
    · simp [kdLookup_cons]
    · rw [kdLookup_cons, if_neg hk, ih]

theorem kdLookup_kdSet_ne (kd : KeyDir) (key key' : Bytes) (r : KeyDirRec) (h : key' ≠ key) :
    kdLookup (kdSet kd key r) key' = kdLookup kd key' := by
  induction kd with
  | nil =>
    show kdLookup [(key, r)] key' = none
    rw [kdLookup_cons, if_neg (fun hc => h hc.symm)]
    rfl
  | cons p rest ih =>
    obtain ⟨k, r0⟩ := p
    simp only [kdSet]
    split_ifs with hk
    · subst hk
      rw [kdLookup_cons, kdLookup_cons, if_neg (fun hc => h hc.symm),
        if_neg (fun hc => h hc.symm)]
    · rw [kdLookup_cons, kdLookup_cons, ih]

theorem kdLookup_of_mem (kd : KeyDir) (key : Bytes) (r : KeyDirRec)
    (nd : (kd.map Prod.fst).Nodup) (h : (key, r) ∈ kd) :
    kdLookup kd key = some r := by
  induction kd with
  | nil => simp at h
  | cons p rest ih =>
    obtain ⟨k, r0⟩ := p
    simp only [List.map_cons, List.nodup_cons] at nd
    rcases List.mem_cons.mp h with h1 | h1
    · injection h1 with h1a h1b
      rw [kdLookup_cons, h1a, h1b, if_pos rfl]
    · have hk : k ≠ key := by
        intro hc
        subst hc
        exact nd.1 (List.mem_map_of_mem Prod.fst h1)
      rw [kdLookup_cons, if_neg hk]
      exact ih nd.2 h1

theorem mem_of_kdLookup (kd : KeyDir) (key : Bytes) (r : KeyDirRec)
    (h : kdLookup kd key = some r) : (key, r) ∈ kd := by
  induction kd with
  | nil => simp [kdLookup] at h
  | cons p rest ih =>
    obtain ⟨k, r0⟩ := p
    rw [kdLookup_cons] at h
    split_ifs at h with hk
    · injection h with h1
      subst hk
      subst h1
      exact List.mem_cons_self _ _
    · exact List.mem_cons_of_mem _ (ih h)

theorem kdLookup_none_of_not_mem (kd : KeyDir) (key : Bytes)
    (h : key ∉ kd.map Prod.fst) : kdLookup kd key = none := by
  induction kd with
  | nil => rfl
  | cons p rest ih =>
    obtain ⟨k, r0⟩ := p
    simp only [List.map_cons, List.mem_cons] at h
    push_neg at h
    rw [kdLookup_cons, if_neg (fun hc => h.1 hc.symm)]
    exact ih h.2

theorem kdSet_keys_mem (kd : KeyDir) (key : Bytes) (r : KeyDirRec) :
    ∀ x, x ∈ (kdSet kd key r).map Prod.fst ↔ x = key ∨ x ∈ kd.map Prod.fst := by
  induction kd with
  | nil => intro x; simp [kdSet]
  | cons p rest ih =>
    obtain ⟨k, r0⟩ := p
    intro x
    simp only [kdSet]
    split_ifs with hk
    · subst hk
      simp only [List.map_cons, List.mem_cons]
      tauto
    · simp only [List.map_cons, List.mem_cons, ih]
      tauto

theorem kdSet_keys_nodup (kd : KeyDir) (key : Bytes) (r : KeyDirRec)
    (nd : (kd.map Prod.fst).Nodup) : ((kdSet kd key r).map Prod.fst).Nodup := by
  induction kd with
  | nil => simp [kdSet]
  | cons p rest ih =>
    obtain ⟨k, r0⟩ := p
    simp only [List.map_cons, List.nodup_cons] at nd
    simp only [kdSet]
    split_ifs with hk
    · subst hk
      simp only [List.map_cons, List.nodup_cons]
      exact ⟨nd.1, nd.2⟩
    · simp only [List.map_cons, List.nodup_cons]
      constructor
      · intro hc
        rcases (kdSet_keys_mem rest key r k).mp hc with h1 | h1
        · exact hk h1
        · exact nd.1 h1
      · exact ih nd.2

theorem writeAt_append_at_end (c b : Bytes) (pos : Nat) (h : c.length = pos) :
    writeAt c pos b = c ++ b := by
  subst h
  simp [writeAt, List.take_length, List.drop_eq_nil_of_le (by omega : c.length ≤ c.length + b.length)]

theorem slice_append_left (c b : Bytes) (p n : Nat) (h : p + n ≤ c.length) :
    ((c ++ b).drop p).take n = (c.drop p).take n := by
  rw [List.drop_append_eq_append_drop, show p - c.length = 0 from by omega, List.drop_zero,
    List.take_append_eq_append_take, show n - (c.drop p).length = 0 from by simp; omega]
  simp

theorem fsExtends_refl (fs : FS) : fsExtends fs fs :=
  fun _ c h => ⟨c, h, le_refl _, fun _ _ _ => rfl⟩

theorem fsExtends_trans {fs1 fs2 fs3 : FS}
    (h21 : fsExtends fs2 fs1) (h32 : fsExtends fs3 fs2) : fsExtends fs3 fs1 := by
  intro name c h
  obtain ⟨c2, hc2, hl2, hs2⟩ := h21 name c h
  obtain ⟨c3, hc3, hl3, hs3⟩ := h32 name c2 hc2
  exact ⟨c3, hc3, le_trans hl2 hl3, fun p n hpn => by
    rw [hs3 p n (le_trans hpn hl2), hs2 p n hpn]⟩

theorem fsExtends_fsSet_append (fs : FS) (name : String) (c b : Bytes)
    (h : fsGet fs name = some c) : fsExtends (fsSet fs name (c ++ b)) fs := by
  intro n d hd
  by_cases hn : n = name
  · subst hn
    rw [h] at hd
    injection hd with hd
    subst hd
    exact ⟨c ++ b, fsGet_fsSet_self fs n (c ++ b), by simp,
      fun p m hpm => slice_append_left c b p m hpm⟩
  · exact ⟨d, by rw [fsGet_fsSet_ne fs name n _ hn, hd], le_refl _, fun _ _ _ => rfl⟩

theorem fsExtends_fsSet_new (fs : FS) (name : String) (b : Bytes)
    (h : fsGet fs name = none) : fsExtends (fsSet fs name b) fs := by
  intro n d hd
  by_cases hn : n = name
  · subst hn
    rw [h] at hd
    exact absurd hd (by simp)
  · exact ⟨d, by rw [fsGet_fsSet_ne fs name n _ hn, hd], le_refl _, fun _ _ _ => rfl⟩

theorem containsRecVal_mono {fs' fs : FS} (hext : fsExtends fs' fs)
    {key : Bytes} {r : KeyDirRec} {v : Bytes} (h : containsRecVal fs key r v) :
    containsRecVal fs' key r v := by
  obtain ⟨content, t, hc, hsz, hk, hv, hb, hs⟩ := h
  obtain ⟨c', hc', hl', hs'⟩ := hext r.FileId content hc
  exact ⟨c', t, hc', hsz, hk, hv, le_trans hb hl',
    by rw [hs' r.ValuePos (18 + key.length + v.length) hb, hs]⟩

theorem ReadValueFromFile_eq_of_containsRecVal (fs : FS) (key : Bytes) (r : KeyDirRec)
    (v : Bytes) (h : containsRecVal fs key r v) :
    ReadValueFromFile fs r.FileId key r.ValuePos r.ValueSize =
      if v = TompStone then .error (.keyNotExist key) else .ok v := by
  obtain ⟨content, t, hc, hsz, hk, hv, hb, hs⟩ := h
  unfold ReadValueFromFile
  rw [hc]
  have hbufsz : (18 + key.length + r.ValueSize) % 2^32 = 18 + key.length + v.length := by
    rw [hsz]
    omega
  rw [hbufsz]
  have hfill : readFill content r.ValuePos (18 + key.length + v.length) =
      CompressDataFileRec key v t := by
    unfold readFill
    rw [hs]
    simp [length_compress]
  simp only [hfill, extract_compress key v t hk hv]

theorem fresh_data_not_mem {fs : FS} {clock : Nat}
    (hfresh : ∀ name, name ∈ fsNames fs → ∀ u, clock ≤ u →
      name ≠ mkName u ".data" ∧ name ≠ mkName u ".hint") :
    mkName clock ".data" ∉ fsNames fs :=
  fun hmem => (hfresh _ hmem clock (le_refl _)).1 rfl

theorem fresh_hint_not_mem {fs : FS} {clock : Nat}
    (hfresh : ∀ name, name ∈ fsNames fs → ∀ u, clock ≤ u →
      name ≠ mkName u ".data" ∧ name ≠ mkName u ".hint") :
    mkName clock ".hint" ∉ fsNames fs :=
  fun hmem => (hfresh _ hmem clock (le_refl _)).2 rfl

theorem newAppendFile_spec (a : AppendFile) (fs : FS) (clock : Nat)
    (hfresh : ∀ name, name ∈ fsNames fs → ∀ u, clock ≤ u →
      name ≠ mkName u ".data" ∧ name ≠ mkName u ".hint") :
    ∃ a1 fs1, a.newAppendFile fs clock = (a1, fs1, clock + 1) ∧
      a1.hasFile = true ∧
      a1.fileName = mkName clock ".data" ∧
      a1.appendType = a.appendType ∧
      a1.currentPos = 0 ∧ a1.currentSize = 0 ∧ a1.hintPos = 0 ∧
      fsGet fs1 a1.fileName = some [] ∧
      (∀ name, name ≠ mkName clock ".data" → name ≠ mkName clock ".hint" →
        fsGet fs1 name = fsGet fs name) ∧
      (∀ name, name ∈ fsNames fs1 →
        name ∈ fsNames fs ∨ name = mkName clock ".data" ∨ name = mkName clock ".hint") ∧
      (∀ name c, fsGet fs1 name = some c → fsGet fs name = some c ∨ c = []) ∧
      (a.appendType = AppendType.merge → a1.hintName = mkName clock ".hint") ∧
      (a.appendType ≠ AppendType.merge → a1.hintName = a.hintName) := by
  have hd : fsGet fs (mkName clock ".data") = none :=
    fsGet_of_not_mem fs _ (fresh_data_not_mem hfresh)
  have hh : fsGet fs (mkName clock ".hint") = none :=
    fsGet_of_not_mem fs _ (fresh_hint_not_mem hfresh)
  have hdh : mkName clock ".data" ≠ mkName clock ".hint" := mkName_data_ne_hint clock clock
  unfold AppendFile.newAppendFile
  by_cases hm : a.appendType = AppendType.merge
  · rw [if_pos hm]
    refine ⟨_, _, rfl, rfl, rfl, rfl, rfl, rfl, rfl, ?_, ?_, ?_, ?_, fun _ => rfl,
      fun hc => absurd hm hc⟩
    · show fsGet (fsSet _ (mkName clock ".hint") _) (mkName clock ".data") = some []
      rw [fsGet_fsSet_ne _ _ _ _ hdh, hd, Option.getD_none, fsGet_fsSet_self]
    · intro name hnd hnh
      show fsGet (fsSet (fsSet fs (mkName clock ".data") _) (mkName clock ".hint") _) name =
        fsGet fs name
      rw [fsGet_fsSet_ne _ _ _ _ hnh, fsGet_fsSet_ne _ _ _ _ hnd]
    · intro name hmem
      rcases fsNames_fsSet_sub _ _ _ name hmem with h1 | h1
      · exact Or.inr (Or.inr h1)
      · rcases fsNames_fsSet_sub _ _ _ name h1 with h2 | h2
        · exact Or.inr (Or.inl h2)
        · exact Or.inl h2
    · intro name c hc
      by_cases hnh : name = mkName clock ".hint"
      · subst hnh
        rw [fsGet_fsSet_self] at hc
        rw [fsGet_fsSet_ne _ _ _ _ (Ne.symm hdh), hh, Option.getD_none] at hc
        injection hc with hc
        exact Or.inr hc.symm
      · rw [fsGet_fsSet_ne _ _ _ _ hnh] at hc
        by_cases hnd : name = mkName clock ".data"
        · subst hnd
          rw [hd, Option.getD_none, fsGet_fsSet_self] at hc
          injection hc with hc
          exact Or.inr hc.symm
        · rw [fsGet_fsSet_ne _ _ _ _ hnd] at hc
          exact Or.inl hc
  · rw [if_neg hm]
    refine ⟨_, _, rfl, rfl, rfl, rfl, rfl, rfl, rfl, ?_, ?_, ?_, ?_,
      fun hc => absurd hc hm, fun _ => rfl⟩
    · show fsGet (fsSet fs (mkName clock ".data") _) (mkName clock ".data") = some []
      rw [hd, Option.getD_none, fsGet_fsSet_self]
    · intro name hnd _
      exact fsGet_fsSet_ne _ _ _ _ hnd
    · intro name hmem
      rcases fsNames_fsSet_sub _ _ _ name hmem with h1 | h1
      · exact Or.inr (Or.inl h1)
      · exact Or.inl h1
    · intro name c hc
      by_cases hnd : name = mkName clock ".data"
      · subst hnd
        rw [hd, Option.getD_none, fsGet_fsSet_self] at hc
        injection hc with hc
        exact Or.inr hc.symm
      · rw [fsGet_fsSet_ne _ _ _ _ hnd] at hc
        exact Or.inl hc

theorem writeDataAppend_false (a : AppendFile) (fs : FS) (clock : Nat)
    (k v : Bytes) (t : Int) :
    writeDataAppend false a fs clock k v t =
      (.ok a.currentPos,
       { a with currentPos := a.currentPos + (CompressDataFileRec k v t).length,
                currentSize := a.currentSize + (CompressDataFileRec k v t).length },
       fsSet fs a.fileName
         (writeAt ((fsGet fs a.fileName).getD []) a.currentPos (CompressDataFileRec k v t)),
       clock) := rfl

theorem WriteData_spec (a : AppendFile) (fs : FS) (clock : Nat) (k v : Bytes) (t : Int)
    (inv : WriterInv a fs clock) :
    ∃ pos a2 fs2 clock2,
      AppendFile.WriteData false a fs clock k v t = (.ok pos, a2, fs2, clock2) ∧
      WriterInv a2 fs2 clock2 ∧
      a2.hasFile = true ∧
      a2.appendType = a.appendType ∧
      clock ≤ clock2 ∧
      fsExtends fs2 fs ∧
      pos ≤ maxFileSize ∧
      (18 + k.length < 2^16 → 18 + k.length + v.length < 2^32 →
        containsRecVal fs2 k ⟨a2.fileName, pos, v.length, t⟩ v) ∧
      (∀ name, name ∈ fsNames fs → name ≠ a2.fileName → name ≠ a2.hintName →
        fsGet fs2 name = fsGet fs name) ∧
      (∀ name, name ∈ fsNames fs2 → name ∈ fsNames fs ∨
        ∃ u, clock ≤ u ∧ u < clock2 ∧ (name = mkName u ".data" ∨ name = mkName u ".hint")) ∧
      ((a.hasFile = true ∧ a2.fileName = a.fileName ∧ a2.hintName = a.hintName) ∨
        ∃ u, clock ≤ u ∧ u < clock2 ∧ a2.fileName = mkName u ".data" ∧
          (a.appendType = AppendType.merge → a2.hintName = mkName u ".hint") ∧
          (a.appendType ≠ AppendType.merge → a2.hintName = a.hintName)) ∧
      ((∀ name c, fsGet fs name = some c → fileSizeOK c) →
        ∀ name c, fsGet fs2 name = some c → fileSizeOK c) := by
  have hlen : (CompressDataFileRec k v t).length = 18 + k.length + v.length :=
    length_compress k v t
  by_cases hroll : a.hasFile = false ∨
      (CompressDataFileRec k v t).length + a.currentSize > maxFileSize
  · -- rollover: a fresh segment is minted and the record becomes its first content
    obtain ⟨a1, fs1, hnaf, hhas, hfn, hty, hcp, hcs, hhp, hget1, hunch, hcls, hnew, hhintm,
      hhinta⟩ := newAppendFile_spec a fs clock inv.fresh
    have heq : AppendFile.WriteData false a fs clock k v t =
        writeDataAppend false a1 fs1 (clock + 1) k v t := by
      unfold AppendFile.WriteData
      rw [if_pos hroll, hnaf]
    rw [heq, writeDataAppend_false, hget1]
    have hwa : writeAt [] a1.currentPos (CompressDataFileRec k v t) =
        CompressDataFileRec k v t := by
      rw [hcp]
      show writeAt [] 0 _ = _
      rw [writeAt_append_at_end [] _ 0 rfl]
      exact List.nil_append _
    simp only [Option.getD_some]
    rw [hwa, hcp, hcs]
    refine ⟨0, _, _, clock + 1, rfl, ?_, hhas, hty, by omega, ?_, by omega, ?_, ?_, ?_, ?_, ?_⟩
    · -- WriterInv
      refine ⟨fun _ => ⟨CompressDataFileRec k v t, ?_, by simp⟩, by simp, ?_⟩
      · show fsGet (fsSet fs1 a1.fileName _) a1.fileName = _
        rw [fsGet_fsSet_self]
      · intro name hmem u hu
        rcases fsNames_fsSet_sub _ _ _ name hmem with h1 | h1
        · subst h1
          rw [hfn]
          constructor
          · intro hc
            have := mkName_inj hc
            omega
          · exact mkName_data_ne_hint clock u
        · rcases hcls name h1 with h2 | h2 | h2
          · exact inv.fresh name h2 u (by omega)
          · subst h2
            constructor
            · intro hc
              have := mkName_inj hc
              omega
            · exact mkName_data_ne_hint clock u
          · subst h2
            constructor
            · intro hc
              exact (mkName_data_ne_hint u clock) hc.symm
            · intro hc
              have := mkName_inj hc
              omega
    · -- fsExtends
      have hext1 : fsExtends fs1 fs := by
        intro name c hc
        have hmem := fsGet_mem_names fs name c hc
        have hnd : name ≠ mkName clock ".data" := (inv.fresh name hmem clock (le_refl _)).1
        have hnh : name ≠ mkName clock ".hint" := (inv.fresh name hmem clock (le_refl _)).2
        exact ⟨c, by rw [hunch name hnd hnh, hc], le_refl _, fun _ _ _ => rfl⟩
      have hext2 : fsExtends (fsSet fs1 a1.fileName (CompressDataFileRec k v t)) fs1 := by
        have := fsExtends_fsSet_append fs1 a1.fileName [] (CompressDataFileRec k v t) hget1
        simpa using this
      exact fsExtends_trans hext1 hext2
    · -- containsRecVal
      intro hk hv
      refine ⟨CompressDataFileRec k v t, t, ?_, rfl, hk, hv, ?_, ?_⟩
      · show fsGet (fsSet fs1 a1.fileName _) a1.fileName = _
        rw [fsGet_fsSet_self]
      · simp [hlen]
      · simp [hlen]
    · -- old names unchanged
      intro name hmem hfn2 hhn2
      have hnd : name ≠ mkName clock ".data" := (inv.fresh name hmem clock (le_refl _)).1
      show fsGet (fsSet fs1 a1.fileName _) name = fsGet fs name
      rw [fsGet_fsSet_ne _ _ _ _ (by rw [hfn]; exact hnd), hunch name hnd]
      by_cases hm : a.appendType = AppendType.merge
      · exact (hhintm hm) ▸ hhn2
      · exact (inv.fresh name hmem clock (le_refl _)).2
    · -- name classification
      intro name hmem
      rcases fsNames_fsSet_sub _ _ _ name hmem with h1 | h1
      · subst h1
        rw [hfn]
        exact Or.inr ⟨clock, le_refl _, by omega, Or.inl rfl⟩
      · rcases hcls name h1 with h2 | h2 | h2
        · exact Or.inl h2
        · exact Or.inr ⟨clock, le_refl _, by omega, Or.inl h2⟩
        · exact Or.inr ⟨clock, le_refl _, by omega, Or.inr h2⟩
    · -- naming of the rolled-over writer
      exact Or.inr ⟨clock, le_refl _, by omega, hfn, hhintm, hhinta⟩
    · -- sizes
      intro hpre name c hc
      by_cases hn1 : name = a1.fileName
      · subst hn1
        rw [fsGet_fsSet_self] at hc
        injection hc with hc
        subst hc
        by_cases hsz : (CompressDataFileRec k v t).length ≤ maxFileSize
        · exact Or.inl hsz
        · exact Or.inr ⟨k, v, t, rfl, by omega⟩
      · rw [fsGet_fsSet_ne _ _ _ _ hn1] at hc
        rcases hcls name (fsGet_mem_names fs1 name c hc) with h2 | h2 | h2
        · rcases hnew name c hc with h3 | h3
          · exact hpre name c h3
          · subst h3
            exact Or.inl (by simp [maxFileSize])
        · rcases hnew name c hc with h3 | h3
          · exact hpre name c h3
          · subst h3
            exact Or.inl (by simp [maxFileSize])
        · rcases hnew name c hc with h3 | h3
          · exact hpre name c h3
          · subst h3
            exact Or.inl (by simp [maxFileSize])
  · -- no rollover: append to the current segment
    push_neg at hroll
    obtain ⟨hhas, hsize⟩ := hroll
    simp only [ne_eq, Bool.not_eq_false] at hhas
    obtain ⟨c, hc, hclen⟩ := inv.act hhas
    have heq : AppendFile.WriteData false a fs clock k v t =
        writeDataAppend false a fs clock k v t := by
      unfold AppendFile.WriteData
      rw [if_neg (by push_neg; exact ⟨by simp [hhas], hsize⟩)]
    rw [heq, writeDataAppend_false, hc]
    have hwa : writeAt ((some c).getD []) a.currentPos (CompressDataFileRec k v t) =
        c ++ CompressDataFileRec k v t := by
      show writeAt c a.currentPos _ = _
      exact writeAt_append_at_end c _ a.currentPos hclen
    rw [hwa]
    have hposmax : a.currentPos ≤ maxFileSize := by
      have := inv.pos_size
      omega
    refine ⟨a.currentPos, _, _, clock, rfl, ?_, hhas, rfl, le_refl _,
      fsExtends_fsSet_append fs a.fileName c _ hc, hposmax, ?_, ?_, ?_, ?_, ?_⟩
    · -- WriterInv
      refine ⟨fun _ => ⟨c ++ CompressDataFileRec k v t, ?_, by simp; omega⟩,
        by simp [inv.pos_size], ?_⟩
      · show fsGet (fsSet fs a.fileName _) a.fileName = _
        rw [fsGet_fsSet_self]
      · intro name hmem u hu
        rcases fsNames_fsSet_sub _ _ _ name hmem with h1 | h1
        · subst h1
          exact inv.fresh a.fileName (fsGet_mem_names fs _ c hc) u hu
        · exact inv.fresh name h1 u hu
    · -- containsRecVal
      intro hk hv
      refine ⟨c ++ CompressDataFileRec k v t, t, ?_, rfl, hk, hv, ?_, ?_⟩
      · show fsGet (fsSet fs a.fileName _) a.fileName = _
        rw [fsGet_fsSet_self]
      · simp [hlen]
        omega
      · rw [← hclen, List.drop_left, ← hlen, List.take_length]
    · -- old names unchanged
      intro name _ hfn2 _
      show fsGet (fsSet fs a.fileName _) name = fsGet fs name
      exact fsGet_fsSet_ne _ _ _ _ hfn2
    · -- name classification
      intro name hmem
      rcases fsNames_fsSet_sub _ _ _ name hmem with h1 | h1
      · exact Or.inl (h1 ▸ fsGet_mem_names fs _ c hc)
      · exact Or.inl h1
    · exact Or.inl ⟨hhas, rfl, rfl⟩
    · -- sizes
      intro hpre name d hd
      by_cases hn1 : name = a.fileName
      · subst hn1
        rw [fsGet_fsSet_self] at hd
        injection hd with hd
        subst hd
        refine Or.inl ?_
        simp [hlen]
        have := inv.pos_size
        omega
      · rw [fsGet_fsSet_ne _ _ _ _ hn1] at hd
        exact hpre name d hd

theorem WriterInv_mono_clock {a : AppendFile} {fs : FS} {clock clock' : Nat}
    (h : clock ≤ clock') (inv : WriterInv a fs clock) : WriterInv a fs clock' :=
  ⟨inv.act, inv.pos_size, fun name hmem u hu => inv.fresh name hmem u (le_trans h hu)⟩

theorem execWrites_sizeOK (writes : List (Bytes × Bytes)) : ∀ a fs clock,
    WriterInv a fs clock → (∀ name c, fsGet fs name = some c → fileSizeOK c) →
    ∀ name c, fsGet (execWrites a fs clock writes).2.1 name = some c → fileSizeOK c := by
  induction writes with
  | nil => intro a fs clock _ hsz; exact hsz
  | cons p rest ih =>
    intro a fs clock hinv hsz
    obtain ⟨k, v⟩ := p
    obtain ⟨pos, a2, fs2, clock2, heq, hinv2, _, _, _, _, _, _, _, _, _, hszpres⟩ :=
      WriteData_spec a fs (clock + 1) k v (clock : Int)
        (WriterInv_mono_clock (by omega) hinv)
    show ∀ name c,
      fsGet (execWrites a fs clock ((k, v) :: rest)).2.1 name = some c → fileSizeOK c
    have hstep : execWrites a fs clock ((k, v) :: rest) = execWrites a2 fs2 clock2 rest := by
      show (match AppendFile.WriteData false a fs (clock + 1) k v (clock : Int) with
        | (_, a1, fs1, clock1) => execWrites a1 fs1 clock1 rest) = _
      rw [heq]
    rw [hstep]
    exact ih a2 fs2 clock2 hinv2 (hszpres hsz)

/-- C6: (1) starting a fresh active-mode writer on an empty directory, a
sequence of `WriteData` calls leaves every file either within the 10 KiB
maximum segment size or consisting of exactly one encoded record longer
than that bound; (2) the rollover decision uses the segment size before
the append: when no rollover condition holds the record is appended to
the same file, growing `currentSize` by the record length, and when it
holds a segment named from the current clock starts over with exactly the
record's length; (3) a newly minted segment accepts its first record
whatever its length: after a write through a writer with no open file,
the fresh segment's contents are exactly the encoded record. -/
theorem C6_segment_size (writes : List (Bytes × Bytes)) (clock0 : Nat) :
    (∀ name c,
        fsGet (execWrites (NewAppendFile AppendType.active) [] clock0 writes).2.1 name =
          some c → fileSizeOK c) ∧
    (∀ (a : AppendFile) (fs : FS) (clock : Nat) (k v : Bytes) (t : Int),
        (¬(a.hasFile = false ∨
            (CompressDataFileRec k v t).length + a.currentSize > maxFileSize) →
          (AppendFile.WriteData false a fs clock k v t).2.1.fileName = a.fileName ∧
          (AppendFile.WriteData false a fs clock k v t).2.1.currentSize =
            a.currentSize + (CompressDataFileRec k v t).length) ∧
        ((a.hasFile = false ∨
            (CompressDataFileRec k v t).length + a.currentSize > maxFileSize) →
          (AppendFile.WriteData false a fs clock k v t).2.1.fileName = mkName clock ".data" ∧
          (AppendFile.WriteData false a fs clock k v t).2.1.currentSize =
            (CompressDataFileRec k v t).length)) ∧
    (∀ (fs : FS) (clock : Nat) (k v : Bytes) (t : Int),
        mkName clock ".data" ∉ fsNames fs →
        fsGet (AppendFile.WriteData false (NewAppendFile AppendType.active) fs clock
            k v t).2.2.1 (mkName clock ".data") = some (CompressDataFileRec k v t)) := by
  refine ⟨?_, ?_, ?_⟩
  · apply execWrites_sizeOK writes (NewAppendFile AppendType.active) [] clock0
    · exact ⟨fun h => by simp [NewAppendFile] at h, rfl, fun name hmem => by simp [fsNames] at hmem⟩
    · intro name c hc
      simp [fsGet] at hc
  · intro a fs clock k v t
    constructor
    · intro hno
      unfold AppendFile.WriteData
      rw [if_neg hno, writeDataAppend_false]
      exact ⟨rfl, rfl⟩
    · intro hyes
      unfold AppendFile.WriteData
      rw [if_pos hyes]
      unfold AppendFile.newAppendFile
      by_cases hm : a.appendType = AppendType.merge
      · rw [if_pos hm]
        refine ⟨rfl, ?_⟩
        show 0 + (CompressDataFileRec k v t).length = (CompressDataFileRec k v t).length
        exact Nat.zero_add _
      · rw [if_neg hm]
        refine ⟨rfl, ?_⟩
        show 0 + (CompressDataFileRec k v t).length = (CompressDataFileRec k v t).length
        exact Nat.zero_add _
  · intro fs clock k v t hfresh
    have hd : fsGet fs (mkName clock ".data") = none := fsGet_of_not_mem fs _ hfresh
    unfold AppendFile.WriteData
    have hcond : (NewAppendFile AppendType.active).hasFile = false ∨
        (CompressDataFileRec k v t).length + (NewAppendFile AppendType.active).currentSize >
          maxFileSize := Or.inl rfl
    rw [if_pos hcond]
    unfold AppendFile.newAppendFile
    rw [if_neg (by simp [NewAppendFile])]
    show fsGet (fsSet _ (mkName clock ".data") _) (mkName clock ".data") = _
    rw [fsGet_fsSet_self]
    congr 1
    show writeAt ((fsGet (fsSet fs (mkName clock ".data")
      ((fsGet fs (mkName clock ".data")).getD [])) (mkName clock ".data")).getD []) 0 _ = _
    rw [fsGet_fsSet_self, hd]
    show writeAt [] 0 _ = _
    rw [writeAt_append_at_end [] _ 0 rfl]
    exact List.nil_append _

/-- C6 witness: the size part applied to one concrete write of key byte
107, value byte 118, from clock 0: the single segment "1.data" holds one
20-byte record, within the bound. -/
theorem C6_segment_size_witness :
    fileSizeOK (CompressDataFileRec [107] [118] 0) :=
  (C6_segment_size [([107], [118])] 0).1 "1.data" (CompressDataFileRec [107] [118] 0) rfl

theorem EInv_openFreshRW : EInv openFreshRW := by
  refine ⟨⟨fun h => ?_, rfl, fun name hmem => ?_⟩, rfl, by simp [openFreshRW], ?_⟩
  · simp [openFreshRW, NewAppendFile] at h
  · simp [openFreshRW, fsNames] at hmem
  · intro key r h
    simp [openFreshRW, kdLookup] at h

theorem Get_congr_of_extends (b b' : Bitcask) (key : Bytes)
    (hinv : EInv b)
    (hlk : kdLookup b'.keyDir key = kdLookup b.keyDir key)
    (hext : fsExtends b'.fs b.fs) :
    b'.Get key = b.Get key := by
  unfold Bitcask.Get
  rw [hlk]
  cases hcase : kdLookup b.keyDir key with
  | none => rfl
  | some r =>
    obtain ⟨v, hcrv⟩ := hinv.kd key r hcase
    show ReadValueFromFile b'.fs r.FileId key r.ValuePos r.ValueSize =
      ReadValueFromFile b.fs r.FileId key r.ValuePos r.ValueSize
    rw [ReadValueFromFile_eq_of_containsRecVal b.fs key r v hcrv,
      ReadValueFromFile_eq_of_containsRecVal b'.fs key r v (containsRecVal_mono hext hcrv)]

theorem Put_spec (b : Bitcask) (k v : Bytes)
    (hinv : EInv b) (hrw : ¬ b.usrOpts.accessPermission = ConfigOpt.ReadOnly)
    (hk : 18 + k.length < 2^16) (hv : 18 + k.length + v.length < 2^32) :
    ∃ b', b.Put false k v = (.ok (), b') ∧
      EInv b' ∧
      b'.usrOpts = b.usrOpts ∧
      fsExtends b'.fs b.fs ∧
      (∃ r, kdLookup b'.keyDir k = some r ∧ r.FileId = b'.activeFile.fileName ∧
        containsRecVal b'.fs k r v) ∧
      (∀ k', k' ≠ k → kdLookup b'.keyDir k' = kdLookup b.keyDir k') ∧
      (∀ k', k' ≠ k → b'.Get k' = b.Get k') := by
  obtain ⟨pos, a2, fs2, clock2, heq, hinv2, hhas2, hty2, hclk2, hext2, hposmax, hcrv, hunch,
    hcls, hnam, hsz⟩ :=
    WriteData_spec b.activeFile b.fs (b.clock + 1) k v (b.clock : Int)
      (WriterInv_mono_clock (by omega) hinv.winv)
  have hcrv' := hcrv hk (by omega)
  unfold Bitcask.Put
  rw [if_neg hrw]
  simp only [heq]
  have hpos32 : pos % 2^32 = pos := Nat.mod_eq_of_lt (by
    have : maxFileSize < 2^32 := by norm_num [maxFileSize]
    omega)
  have hvl32 : v.length % 2^32 = v.length := Nat.mod_eq_of_lt (by omega)
  refine ⟨_, rfl, ?_, rfl, hext2, ?_, ?_, ?_⟩
  · refine ⟨hinv2, by rw [hty2]; exact hinv.atype, kdSet_keys_nodup _ _ _ hinv.nodup, ?_⟩
    intro key r h
    by_cases hkey : key = k
    · subst hkey
      rw [kdLookup_kdSet_self] at h
      injection h with h
      subst h
      exact ⟨v, by rw [hpos32, hvl32]; exact hcrv'⟩
    · rw [kdLookup_kdSet_ne _ _ _ _ hkey] at h
      obtain ⟨v', hv'⟩ := hinv.kd key r h
      exact ⟨v', containsRecVal_mono hext2 hv'⟩
  · exact ⟨_, kdLookup_kdSet_self _ _ _, rfl, by rw [hpos32, hvl32]; exact hcrv'⟩
  · intro k' hk'
    exact kdLookup_kdSet_ne _ _ _ _ hk'
  · intro k' hk'
    exact Get_congr_of_extends b _ k' hinv (kdLookup_kdSet_ne _ _ _ _ hk') hext2

theorem TompStone_length : TompStone.length = 64 := rfl

/-- C9: on a read-write handle, putting the 64-character tombstone literal
as the value makes the key unreadable: `Put(k, TompStone)` succeeds, and
the following `Get(k)` returns the key-not-exist error even though
`Delete` was never called.  (Key length bounded as required by the record
format.) -/
theorem C9_tombstone_value_unreadable (b : Bitcask) (k : Bytes)
    (hinv : EInv b) (hrw : ¬ b.usrOpts.accessPermission = ConfigOpt.ReadOnly)
    (hk : 18 + k.length < 2^16) :
    ∃ b', b.Put false k TompStone = (.ok (), b') ∧
      b'.Get k = .error (.keyNotExist k) := by
  obtain ⟨b', heq, hinv', _, _, ⟨r, hlk, _, hcrv⟩, _, _⟩ :=
    Put_spec b k TompStone hinv hrw hk (by rw [TompStone_length]; omega)
  refine ⟨b', heq, ?_⟩
  unfold Bitcask.Get
  rw [hlk]
  show ReadValueFromFile b'.fs r.FileId k r.ValuePos r.ValueSize = _
  rw [ReadValueFromFile_eq_of_containsRecVal b'.fs k r TompStone hcrv, if_pos rfl]

/-- C9 witness: the theorem applied to the freshly opened read-write
engine and the key "k" (byte 107). -/
theorem C9_tombstone_value_unreadable_witness :
    ∃ b', openFreshRW.Put false [107] TompStone = (.ok (), b') ∧
      b'.Get [107] = .error (.keyNotExist [107]) :=
  C9_tombstone_value_unreadable openFreshRW [107] EInv_openFreshRW (by decide) (by norm_num)

theorem ReadValueFromFile_congr (fs fs' : FS) (fileId : String) (key : Bytes)
    (pos size : Nat) (h : fsGet fs' fileId = fsGet fs fileId) :
    ReadValueFromFile fs' fileId key pos size = ReadValueFromFile fs fileId key pos size := by
  unfold ReadValueFromFile
  rw [h]

theorem containsRecVal_of_fsGet_eq {fs fs' : FS} {key : Bytes} {r : KeyDirRec} {v : Bytes}
    (h : fsGet fs' r.FileId = fsGet fs r.FileId) (hc : containsRecVal fs key r v) :
    containsRecVal fs' key r v := by
  obtain ⟨content, t, hget, hrest⟩ := hc
  exact ⟨content, t, by rw [h, hget], hrest⟩

theorem WriteHint_snd_ne (mf : AppendFile) (fs : FS) (key : Bytes) (r : KeyDirRec)
    (name : String) (h : name ≠ mf.hintName) :
    fsGet (mf.WriteHint fs key r).2 name = fsGet fs name := by
  unfold AppendFile.WriteHint
  exact fsGet_fsSet_ne _ _ _ _ h

theorem WriteHint_fst (mf : AppendFile) (fs : FS) (key : Bytes) (r : KeyDirRec) :
    (mf.WriteHint fs key r).1.fileName = mf.fileName ∧
    (mf.WriteHint fs key r).1.hintName = mf.hintName ∧
    (mf.WriteHint fs key r).1.hasFile = mf.hasFile ∧
    (mf.WriteHint fs key r).1.appendType = mf.appendType ∧
    (mf.WriteHint fs key r).1.currentPos = mf.currentPos ∧
    (mf.WriteHint fs key r).1.currentSize = mf.currentSize :=
  ⟨rfl, rfl, rfl, rfl, rfl, rfl⟩

theorem WriteHint_names_sub (mf : AppendFile) (fs : FS) (key : Bytes) (r : KeyDirRec) :
    ∀ name, name ∈ fsNames (mf.WriteHint fs key r).2 →
      name = mf.hintName ∨ name ∈ fsNames fs := by
  unfold AppendFile.WriteHint
  exact fsNames_fsSet_sub _ _ _

theorem fsNames_fsRemove_sub (fs : FS) (m name : String)
    (h : name ∈ fsNames (fsRemove fs m)) : name ∈ fsNames fs := by
  induction fs with
  | nil => simp [fsRemove, fsNames] at h
  | cons p rest ih =>
    obtain ⟨n, c⟩ := p
    simp only [fsRemove, List.filter_cons] at h
    split_ifs at h with hd
    · simp only [fsNames, List.map_cons, List.mem_cons] at h ⊢
      rcases h with h | h
      · exact Or.inl h
      · exact Or.inr (ih h)
    · simp only [fsNames, List.map_cons, List.mem_cons]
      exact Or.inr (ih h)

theorem fsNames_deleteFiles_sub (names : List String) : ∀ (fs : FS) (n : String),
    n ∈ fsNames (deleteFiles fs names) → n ∈ fsNames fs := by
  induction names with
  | nil => intro fs n h; exact h
  | cons m rest ih =>
    intro fs n h
    exact fsNames_fsRemove_sub fs m n (ih (fsRemove fs m) n h)

theorem fsGet_of_mem_names (fs : FS) (name : String) (h : name ∈ fsNames fs) :
    ∃ c, fsGet fs name = some c := by
  induction fs with
  | nil => simp [fsNames] at h
  | cons p rest ih =>
    obtain ⟨n, c⟩ := p
    simp only [fsNames, List.map_cons, List.mem_cons] at h
    by_cases hd : name = n
    · exact ⟨c, by simp [fsGet, hd.symm]⟩
    · rcases h with h | h
      · exact absurd h hd
      · obtain ⟨d, hd2⟩ := ih h
        refine ⟨d, ?_⟩
        have hne : ¬ n = name := fun hc => hd hc.symm
        simp [fsGet, hne, hd2]

theorem mergeWrite_spec (fs0 : FS) (clock0 : Nat) (origKD : KeyDir)
    (fs0fresh : ∀ name, name ∈ fsNames fs0 → ∀ u, clock0 ≤ u →
      name ≠ mkName u ".data" ∧ name ≠ mkName u ".hint")
    (mf : AppendFile) (fs : FS) (clock : Nat)
    (hm : MInv fs0 clock0 mf fs clock)
    (key : Bytes) (r : KeyDirRec) (v : Bytes)
    (hlk : kdLookup origKD key = some r)
    (hcrv : containsRecVal fs0 key r v) :
    ∃ res mf2 fs2 clock2,
      Bitcask.mergeWrite origKD mf fs clock key = (res, mf2, fs2, clock2) ∧
      MInv fs0 clock0 mf2 fs2 clock2 ∧
      clock ≤ clock2 ∧
      (∀ key' r' v', containsRecVal fs key' r' v' → (∃ u, r'.FileId = mkName u ".data") →
        containsRecVal fs2 key' r' v') ∧
      ((v = TompStone ∧ res = .error (.keyNotExist key) ∧ mf2 = mf ∧ fs2 = fs ∧
        clock2 = clock) ∨
       (v ≠ TompStone ∧ ∃ newRec, res = .ok newRec ∧
         containsRecVal fs2 key newRec v ∧
         ∃ u, clock0 ≤ u ∧ u < clock2 ∧ newRec.FileId = mkName u ".data")) := by
  have hmem0 : r.FileId ∈ fsNames fs0 := by
    obtain ⟨content, t, hget, _⟩ := hcrv
    exact fsGet_mem_names fs0 _ content hget
  have hread : ReadValueFromFile fs r.FileId key r.ValuePos r.ValueSize =
      if v = TompStone then .error (.keyNotExist key) else .ok v := by
    rw [ReadValueFromFile_congr fs0 fs r.FileId key r.ValuePos r.ValueSize
      (hm.fs0pres r.FileId hmem0)]
    exact ReadValueFromFile_eq_of_containsRecVal fs0 key r v hcrv
  have hkb : 18 + key.length < 2^16 := by
    obtain ⟨_, _, _, _, h1, _, _, _⟩ := hcrv
    exact h1
  have hvb : 18 + key.length + v.length < 2^32 := by
    obtain ⟨_, _, _, _, _, h1, _, _⟩ := hcrv
    exact h1
  unfold Bitcask.mergeWrite
  rw [hlk]
  simp only [Option.getD_some]
  by_cases hts : v = TompStone
  · rw [hread, if_pos hts]
    exact ⟨_, _, _, _, rfl, hm, le_refl _, fun _ _ _ h _ => h,
      Or.inl ⟨hts, rfl, rfl, rfl, rfl⟩⟩
  · rw [hread, if_neg hts]
    obtain ⟨pos, a2, fs2, clock2, heq, hinv2, hhas2, hty2, hclk2, hext2, hposmax, hcrv2, hunch,
      hcls2, hnam, _⟩ :=
      WriteData_spec mf fs (clock + 1) key v (clock : Int)
        (WriterInv_mono_clock (by omega) hm.winv)
    simp only [heq]
    have hcrv2' := hcrv2 hkb hvb
    have hpos32 : pos % 2^32 = pos := Nat.mod_eq_of_lt (by
      have : maxFileSize < 2^32 := by norm_num [maxFileSize]
      omega)
    have hvl32 : v.length % 2^32 = v.length := Nat.mod_eq_of_lt (by omega)
    -- names of the writer after the write
    have hnames2 : ∃ u, clock0 ≤ u ∧ u < clock2 ∧
        a2.fileName = mkName u ".data" ∧ a2.hintName = mkName u ".hint" := by
      rcases hnam with ⟨hhf, hfn, hhn⟩ | ⟨u, hu1, hu2, hfn, hhm, _⟩
      · obtain ⟨u, hu1, hu2, hfn0, hhn0⟩ := hm.mnames hhf
        exact ⟨u, hu1, by omega, by rw [hfn, hfn0], by rw [hhn, hhn0]⟩
      · exact ⟨u, by have := hm.clk; omega, hu2, hfn, hhm hm.mtype⟩
    obtain ⟨u, hu1, hu2, hfn, hhn⟩ := hnames2
    have hhintne : ∀ w, mkName w ".data" ≠ a2.hintName := by
      intro w
      rw [hhn]
      exact mkName_data_ne_hint w u
    -- the hint append step
    have hw3 : ∀ name, name ≠ a2.hintName →
        fsGet (AppendFile.WriteHint a2 fs2 key
          ⟨a2.fileName, pos % 2^32, v.length % 2^32, (clock : Int)⟩).2 name = fsGet fs2 name :=
      fun name hne => WriteHint_snd_ne a2 fs2 key _ name hne
    refine ⟨_, _, _, _, rfl, ?_, by omega, ?_, Or.inr ⟨hts, _, rfl, ?_, u, hu1, hu2, ?_⟩⟩
    · -- MInv after data and hint writes
      refine ⟨⟨?_, ?_, ?_⟩, ?_, ?_, by have := hm.clk; omega, ?_, ?_⟩
      · intro _
        obtain ⟨c, hc, hlenc⟩ := hinv2.act hhas2
        refine ⟨c, ?_, hlenc⟩
        rw [(WriteHint_fst a2 fs2 key _).1, hw3 a2.fileName (by rw [hfn]; exact hhintne u), hc]
      · rw [(WriteHint_fst a2 fs2 key _).2.2.2.2.1, (WriteHint_fst a2 fs2 key _).2.2.2.2.2]
        exact hinv2.pos_size
      · intro name hmem w hw
        rcases WriteHint_names_sub a2 fs2 key _ name hmem with h1 | h1
        · subst h1
          rw [hhn]
          constructor
          · exact fun hc => (mkName_data_ne_hint w u) hc.symm
          · intro hc
            have := mkName_inj hc
            omega
        · exact hinv2.fresh name h1 w hw
      · rw [(WriteHint_fst a2 fs2 key _).2.2.2.1, hty2]
        exact hm.mtype
      · intro hhf
        refine ⟨u, hu1, hu2, ?_, ?_⟩
        · rw [(WriteHint_fst a2 fs2 key _).1, hfn]
        · rw [(WriteHint_fst a2 fs2 key _).2.1, hhn]
      · intro name hmem
        have hne1 : name ≠ a2.hintName := by
          intro hc
          subst hc
          exact ((fs0fresh _ hmem u (by omega)).2) hhn
        have hne2 : name ≠ a2.fileName := by
          intro hc
          subst hc
          exact ((fs0fresh _ hmem u (by omega)).1) hfn
        have hnamemem : name ∈ fsNames fs := by
          have := hm.fs0pres name hmem
          obtain ⟨c, hc⟩ := fsGet_of_mem_names fs0 name hmem
          exact fsGet_mem_names fs name c (by rw [this, hc])
        rw [hw3 name hne1, hunch name hnamemem hne2 hne1]
        exact hm.fs0pres name hmem
      · intro name hmem
        rcases WriteHint_names_sub a2 fs2 key _ name hmem with h1 | h1
        · subst h1
          exact Or.inr ⟨u, hu1, hu2, Or.inr hhn⟩
        · rcases hcls2 name h1 with h2 | h2
          · rcases hm.cls name h2 with h3 | ⟨w, hw1, hw2, hw3⟩
            · exact Or.inl h3
            · exact Or.inr ⟨w, hw1, by omega, hw3⟩
          · obtain ⟨w, hw1, hw2, hw3⟩ := h2
            exact Or.inr ⟨w, by have := hm.clk; omega, hw2, hw3⟩
    · -- data-file preservation
      intro key' r' v' hcv ⟨w, hw⟩
      have h1 : containsRecVal fs2 key' r' v' := containsRecVal_mono hext2 hcv
      exact containsRecVal_of_fsGet_eq (by rw [hw3 r'.FileId (by rw [hw]; exact hhintne w)]) h1
    · -- the new record
      have h1 : containsRecVal fs2 key ⟨a2.fileName, pos, v.length, (clock : Int)⟩ v := hcrv2'
      have h2 : containsRecVal fs2 key ⟨a2.fileName, pos % 2^32, v.length % 2^32,
          (clock : Int)⟩ v := by
        rw [hpos32, hvl32]
        exact h1
      exact containsRecVal_of_fsGet_eq
        (by rw [hw3 a2.fileName (by rw [hfn]; exact hhintne u)]) h2
    · exact hfn

theorem kdLookup_some_of_mem_keys (kd : KeyDir) (key : Bytes)
    (h : key ∈ kd.map Prod.fst) : ∃ r, kdLookup kd key = some r := by
  induction kd with
  | nil => simp at h
  | cons p rest ih =>
    obtain ⟨k, r0⟩ := p
    by_cases hk : k = key
    · exact ⟨r0, by rw [kdLookup_cons, if_pos hk]⟩
    · simp only [List.map_cons, List.mem_cons] at h
      rcases h with h | h
      · exact absurd h.symm hk
      · obtain ⟨r, hr⟩ := ih h
        exact ⟨r, by rw [kdLookup_cons, if_neg hk, hr]⟩

theorem kdLookup_mem_of_some (kd : KeyDir) (key : Bytes) (r : KeyDirRec)
    (h : kdLookup kd key = some r) : (key, r) ∈ kd := by
  induction kd with
  | nil => simp [kdLookup] at h
  | cons p rest ih =>
    obtain ⟨k, r0⟩ := p
    rw [kdLookup_cons] at h
    split_ifs at h with hk
    · injection h with h
      subst hk h
      exact List.mem_cons_self _ _
    · exact List.mem_cons_of_mem _ (ih h)

theorem MInv_pres_step {fs0 : FS} {clock0 : Nat} {mf : AppendFile} {fs : FS} {clock : Nat}
    {mf1 : AppendFile} {fs1 : FS} {clock1 : Nat}
    (hm : MInv fs0 clock0 mf fs clock) (hm1 : MInv fs0 clock0 mf1 fs1 clock1)
    (hpres1 : ∀ key' r' v', containsRecVal fs key' r' v' →
      (∃ u, r'.FileId = mkName u ".data") → containsRecVal fs1 key' r' v') :
    ∀ key' r' v', containsRecVal fs key' r' v' →
      (r'.FileId ∈ fsNames fs0 ∨ ∃ u, r'.FileId = mkName u ".data") →
      containsRecVal fs1 key' r' v' := by
  intro key' r' v' hcv hor
  rcases hor with hmem | hmk
  · exact containsRecVal_of_fsGet_eq (by rw [hm1.fs0pres _ hmem, hm.fs0pres _ hmem]) hcv
  · exact hpres1 key' r' v' hcv hmk

theorem mergeLoop_spec (fs0 : FS) (clock0 : Nat) (origKD : KeyDir) (activeName : String)
    (val : Bytes → KeyDirRec → Bytes)
    (fs0fresh : ∀ name, name ∈ fsNames fs0 → ∀ u, clock0 ≤ u →
      name ≠ mkName u ".data" ∧ name ≠ mkName u ".hint") :
    ∀ (entries : List (Bytes × KeyDirRec)) (newKD : KeyDir) (mf : AppendFile) (fs : FS)
      (clock : Nat),
      MInv fs0 clock0 mf fs clock →
      (entries.map Prod.fst).Nodup →
      (∀ key r, (key, r) ∈ entries → kdLookup origKD key = some r) →
      (∀ key r, (key, r) ∈ entries → containsRecVal fs0 key r (val key r)) →
      ∃ kd2 mf2 fs2 clock2,
        Bitcask.mergeLoop origKD activeName entries newKD mf fs clock =
          (.ok (), kd2, mf2, fs2, clock2) ∧
        MInv fs0 clock0 mf2 fs2 clock2 ∧
        clock ≤ clock2 ∧
        (∀ key' r' v', containsRecVal fs key' r' v' →
          (r'.FileId ∈ fsNames fs0 ∨ ∃ u, r'.FileId = mkName u ".data") →
          containsRecVal fs2 key' r' v') ∧
        ((newKD.map Prod.fst).Nodup → (kd2.map Prod.fst).Nodup) ∧
        (∀ key, key ∉ entries.map Prod.fst → kdLookup kd2 key = kdLookup newKD key) ∧
        (∀ key r, (key, r) ∈ entries →
          (r.FileId = activeName → kdLookup kd2 key = some r) ∧
          (r.FileId ≠ activeName → val key r = TompStone →
            kdLookup kd2 key = kdLookup newKD key) ∧
          (r.FileId ≠ activeName → val key r ≠ TompStone →
            ∃ r2, kdLookup kd2 key = some r2 ∧ containsRecVal fs2 key r2 (val key r) ∧
              ∃ u, clock0 ≤ u ∧ u < clock2 ∧ r2.FileId = mkName u ".data")) := by
  intro entries
  induction entries with
  | nil =>
    intro newKD mf fs clock hm _ _ _
    exact ⟨newKD, mf, fs, clock, rfl, hm, le_refl _, fun _ _ _ h _ => h, fun h => h,
      fun _ _ => rfl, fun _ _ h => absurd h (List.not_mem_nil _)⟩
  | cons p rest ih =>
    obtain ⟨key, r⟩ := p
    intro newKD mf fs clock hm hnd hlk hvals
    simp only [List.map_cons, List.nodup_cons] at hnd
    obtain ⟨hknr, hndr⟩ := hnd
    have hlkr : ∀ key' r', (key', r') ∈ rest → kdLookup origKD key' = some r' :=
      fun key' r' h => hlk key' r' (List.mem_cons_of_mem _ h)
    have hvalsr : ∀ key' r', (key', r') ∈ rest → containsRecVal fs0 key' r' (val key' r') :=
      fun key' r' h => hvals key' r' (List.mem_cons_of_mem _ h)
    by_cases hact : r.FileId = activeName
    · -- active-segment entry: copied unchanged
      obtain ⟨kd2, mf2, fs2, clock2, heq2, hm2, hclk2, hpres2, hnd2, hout2, hent2⟩ :=
        ih (kdSet newKD key r) mf fs clock hm hndr hlkr hvalsr
      refine ⟨kd2, mf2, fs2, clock2, ?_, hm2, hclk2, hpres2,
        fun h => hnd2 (kdSet_keys_nodup newKD key r h), ?_, ?_⟩
      · show (if r.FileId ≠ activeName then _ else _) = _
        rw [if_neg (fun hc => hc hact)]
        exact heq2
      · intro key' hk'
        simp only [List.map_cons, List.mem_cons] at hk'
        push_neg at hk'
        rw [hout2 key' hk'.2, kdLookup_kdSet_ne newKD key key' r hk'.1]
      · intro key' r' hmem'
        rcases List.mem_cons.mp hmem' with h1 | h1
        · injection h1 with h1a h1b
          subst h1a h1b
          refine ⟨fun _ => ?_, fun hne _ => absurd hact hne, fun hne _ => absurd hact hne⟩
          rw [hout2 key' hknr, kdLookup_kdSet_self]
        · have hkne : key' ≠ key := by
            intro hc
            subst hc
            exact hknr (List.mem_map_of_mem Prod.fst h1)
          obtain ⟨ha, hb, hc⟩ := hent2 key' r' h1
          exact ⟨ha, fun h1 h2 => by
            rw [hb h1 h2, kdLookup_kdSet_ne newKD key key' r hkne], hc⟩
    · -- non-active entry: re-read and re-append
      obtain ⟨res, mf1, fs1, clock1, hweq, hm1, hclk1, hpres1, hdisj⟩ :=
        mergeWrite_spec fs0 clock0 origKD fs0fresh mf fs clock hm key r (val key r)
          (hlk key r (List.mem_cons_self _ _)) (hvals key r (List.mem_cons_self _ _))
      rcases hdisj with ⟨hts, hres, hmf, hfs, hclk⟩ | ⟨hts, newRec, hres, hcrvnew, u, hu0, hu1, hufid⟩
      · -- tombstone: key dropped
        subst hres
        obtain ⟨kd2, mf2, fs2, clock2, heq2, hm2, hclk2, hpres2, hnd2, hout2, hent2⟩ :=
          ih newKD mf1 fs1 clock1 hm1 hndr hlkr hvalsr
        refine ⟨kd2, mf2, fs2, clock2, ?_, hm2, by omega, ?_, hnd2, ?_, ?_⟩
        · show (if r.FileId ≠ activeName then _ else _) = _
          rw [if_pos hact, hweq]
          exact heq2
        · intro key' r' v' hcv hor
          exact hpres2 key' r' v' (MInv_pres_step hm hm1 hpres1 key' r' v' hcv hor) hor
        · intro key' hk'
          simp only [List.map_cons, List.mem_cons] at hk'
          push_neg at hk'
          exact hout2 key' hk'.2
        · intro key' r' hmem'
          rcases List.mem_cons.mp hmem' with h1 | h1
          · injection h1 with h1a h1b
            subst h1a h1b
            exact ⟨fun h => absurd h hact, fun _ _ => hout2 key' hknr,
              fun _ hne => absurd hts hne⟩
          · exact hent2 key' r' h1
      · -- live value: fresh record appended, index rebound
        subst hres
        obtain ⟨kd2, mf2, fs2, clock2, heq2, hm2, hclk2, hpres2, hnd2, hout2, hent2⟩ :=
          ih (kdSet newKD key newRec) mf1 fs1 clock1 hm1 hndr hlkr hvalsr
        refine ⟨kd2, mf2, fs2, clock2, ?_, hm2, by omega, ?_,
          fun h => hnd2 (kdSet_keys_nodup newKD key newRec h), ?_, ?_⟩
        · show (if r.FileId ≠ activeName then _ else _) = _
          rw [if_pos hact, hweq]
          exact heq2
        · intro key' r' v' hcv hor
          exact hpres2 key' r' v' (MInv_pres_step hm hm1 hpres1 key' r' v' hcv hor) hor
        · intro key' hk'
          simp only [List.map_cons, List.mem_cons] at hk'
          push_neg at hk'
          rw [hout2 key' hk'.2, kdLookup_kdSet_ne newKD key key' newRec hk'.1]
        · intro key' r' hmem'
          rcases List.mem_cons.mp hmem' with h1 | h1
          · injection h1 with h1a h1b
            subst h1a h1b
            refine ⟨fun h => absurd h hact, fun _ h => absurd h hts, fun _ _ => ?_⟩
            refine ⟨newRec, ?_, ?_, u, hu0, by omega, hufid⟩
            · rw [hout2 key' hknr, kdLookup_kdSet_self]
            · exact hpres2 key' newRec (val key' r') hcrvnew (Or.inr ⟨u, hufid⟩)
          · have hkne : key' ≠ key := by
              intro hc
              subst hc
              exact hknr (List.mem_map_of_mem Prod.fst h1)
            obtain ⟨ha, hb, hc⟩ := hent2 key' r' h1
            exact ⟨ha, fun h1 h2 => by
              rw [hb h1 h2, kdLookup_kdSet_ne newKD key key' newRec hkne], hc⟩

theorem CompressDataFileRec_drop (key v : Bytes) (t : Int) :
    (CompressDataFileRec key v t).drop (18 + key.length) = v := by
  have h : CompressDataFileRec key v t =
      (u32le (crc32 (u64le (int64Bits t) ++ u16le key.length ++ u32le v.length ++ key ++ v)) ++
       u64le (int64Bits t) ++ u16le key.length ++ u32le v.length ++ key) ++ v := by
    unfold CompressDataFileRec
    simp [List.append_assoc]
  have hlen :
      (u32le (crc32 (u64le (int64Bits t) ++ u16le key.length ++ u32le v.length ++ key ++ v)) ++
       u64le (int64Bits t) ++ u16le key.length ++ u32le v.length ++ key).length =
        18 + key.length := by
    simp [u32le, u64le, u16le]
    omega
  rw [h, ← hlen, List.drop_left]

theorem containsRecVal_fun {fs : FS} {key : Bytes} {r : KeyDirRec} {v v' : Bytes}
    (h : containsRecVal fs key r v) (h' : containsRecVal fs key r v') : v = v' := by
  obtain ⟨c, t, hc, hsz, _, _, hb, hs⟩ := h
  obtain ⟨c', t', hc', hsz', _, _, hb', hs'⟩ := h'
  rw [hc] at hc'
  injection hc' with hcc
  subst hcc
  have hlen : v.length = v'.length := by omega
  have hrec : CompressDataFileRec key v t = CompressDataFileRec key v' t' := by
    rw [← hs, ← hs', hlen]
  calc v = (CompressDataFileRec key v t).drop (18 + key.length) :=
        (CompressDataFileRec_drop key v t).symm
    _ = (CompressDataFileRec key v' t').drop (18 + key.length) := by rw [hrec]
    _ = v' := CompressDataFileRec_drop key v' t'

theorem listOldFiles_mem (b : Bitcask) (n : String) (h : n ∈ b.listOldFiles) :
    n ∈ fsNames b.fs ∧ n ≠ b.activeFile.fileName := by
  unfold Bitcask.listOldFiles at h
  have hm := List.mem_filter.mp h
  have h2 := hm.2
  simp only [Bool.and_eq_true, bne_iff_ne, ne_eq] at h2
  exact ⟨hm.1, h2.1.2⟩

theorem Merge_spec (b : Bitcask) (hinv : EInv b)
    (hrw : ¬ b.usrOpts.accessPermission = ConfigOpt.ReadOnly) :
    ∃ b', b.Merge = (.ok (), b') ∧ EInv b' ∧
      b'.usrOpts = b.usrOpts ∧ b'.activeFile = b.activeFile ∧
      (∀ k, b'.Get k = b.Get k) ∧
      (∀ key r, kdLookup b.keyDir key = some r → r.FileId = b.activeFile.fileName →
        kdLookup b'.keyDir key = some r) ∧
      (∀ key r v, kdLookup b.keyDir key = some r → containsRecVal b.fs key r v →
        r.FileId ≠ b.activeFile.fileName → v = TompStone →
        kdLookup b'.keyDir key = none) ∧
      (∀ key r v, kdLookup b.keyDir key = some r → containsRecVal b.fs key r v →
        r.FileId ≠ b.activeFile.fileName → v ≠ TompStone →
        ∃ r2, kdLookup b'.keyDir key = some r2 ∧ r2.FileId ∉ fsNames b.fs ∧
          b'.Get key = .ok v) := by
  have hval : ∀ (key : Bytes) (r : KeyDirRec), ∃ v,
      ((key, r) ∈ b.keyDir → containsRecVal b.fs key r v) := by
    intro key r
    by_cases hmem : (key, r) ∈ b.keyDir
    · obtain ⟨v, hv⟩ := hinv.kd key r (kdLookup_of_mem b.keyDir key r hinv.nodup hmem)
      exact ⟨v, fun _ => hv⟩
    · exact ⟨[], fun h => absurd h hmem⟩
  choose val hvals using hval
  have hm0 : MInv b.fs b.clock (NewAppendFile AppendType.merge) b.fs b.clock := by
    refine ⟨⟨fun h => ?_, rfl, hinv.winv.fresh⟩, rfl, fun h => ?_, le_refl _,
      fun _ _ => rfl, fun name h => Or.inl h⟩
    · simp [NewAppendFile] at h
    · simp [NewAppendFile] at h
  have hlk0 : ∀ key r, (key, r) ∈ b.keyDir → kdLookup b.keyDir key = some r :=
    fun key r h => kdLookup_of_mem b.keyDir key r hinv.nodup h
  obtain ⟨kd2, mf2, fs2, clock2, heq, hm2, hclk2, hpres2, hnd2, hout2, hent2⟩ :=
    mergeLoop_spec b.fs b.clock b.keyDir b.activeFile.fileName val hinv.winv.fresh
      b.keyDir [] (NewAppendFile AppendType.merge) b.fs b.clock hm0 hinv.nodup hlk0 hvals
  have hactnotold : b.activeFile.fileName ∉ b.listOldFiles :=
    fun h => (listOldFiles_mem b _ h).2 rfl
  have hfreshnotold : ∀ u, b.clock ≤ u → mkName u ".data" ∉ b.listOldFiles := by
    intro u hu hmem
    exact (hinv.winv.fresh _ (listOldFiles_mem b _ hmem).1 u hu).1 rfl
  have hdelget : ∀ n, n ∉ b.listOldFiles →
      fsGet (deleteFiles fs2 b.listOldFiles) n = fsGet fs2 n :=
    fun n h => fsGet_deleteFiles_ne _ _ _ h
  refine ⟨{ b with keyDir := kd2, fs := deleteFiles fs2 b.listOldFiles, clock := clock2 },
    ?_, ?_, rfl, rfl, ?_, ?_, ?_, ?_⟩
  · unfold Bitcask.Merge
    rw [if_neg hrw]
    simp only [heq]
  · -- the engine invariant after merge
    refine ⟨⟨?_, hinv.winv.pos_size, ?_⟩, hinv.atype, hnd2 (by simp), ?_⟩
    · intro h
      obtain ⟨c, hc, hl⟩ := hinv.winv.act h
      refine ⟨c, ?_, hl⟩
      have hmemfs0 : b.activeFile.fileName ∈ fsNames b.fs := fsGet_mem_names _ _ _ hc
      show fsGet (deleteFiles fs2 b.listOldFiles) b.activeFile.fileName = some c
      rw [hdelget _ hactnotold, hm2.fs0pres _ hmemfs0, hc]
    · intro name hmem u hu
      have hu2 : clock2 ≤ u := hu
      have hmem2 : name ∈ fsNames fs2 := fsNames_deleteFiles_sub _ _ _ hmem
      have hcu : b.clock ≤ u := le_trans hm2.clk hu2
      rcases hm2.cls name hmem2 with h1 | ⟨w, hw0, hw1, hw2⟩
      · exact hinv.winv.fresh name h1 u hcu
      · rcases hw2 with hd | hh
        · subst hd
          refine ⟨fun hc => ?_, mkName_data_ne_hint w u⟩
          have := mkName_inj hc
          omega
        · subst hh
          refine ⟨fun hc => mkName_data_ne_hint u w hc.symm, fun hc => ?_⟩
          have := mkName_inj hc
          omega
    · intro key r hlk
      by_cases hkmem : key ∈ b.keyDir.map Prod.fst
      · obtain ⟨r0, hr0⟩ := kdLookup_some_of_mem_keys _ _ hkmem
        have hmem0 := kdLookup_mem_of_some _ _ _ hr0
        have hcv0 := hvals key r0 hmem0
        have hmemfs0 : r0.FileId ∈ fsNames b.fs := by
          obtain ⟨c0, _, hc0, _⟩ := hcv0
          exact fsGet_mem_names _ _ _ hc0
        obtain ⟨ha, hb2, hc2⟩ := hent2 key r0 hmem0
        by_cases hactc : r0.FileId = b.activeFile.fileName
        · have hlk2 := ha hactc
          rw [hlk] at hlk2
          injection hlk2 with hre
          subst hre
          refine ⟨val key r, containsRecVal_of_fsGet_eq ?_
            (containsRecVal_of_fsGet_eq (by rw [hm2.fs0pres _ hmemfs0]) hcv0)⟩
          rw [hdelget r.FileId (by rw [hactc]; exact hactnotold)]
        · by_cases hts : val key r0 = TompStone
          · have hlk2 := hb2 hactc hts
            rw [hlk] at hlk2
            exact Option.noConfusion hlk2
          · obtain ⟨r2, hlk2, hcrv2, u, hu0, hu1, hfid⟩ := hc2 hactc hts
            rw [hlk] at hlk2
            injection hlk2 with hre
            subst hre
            refine ⟨val key r0, containsRecVal_of_fsGet_eq ?_ hcrv2⟩
            rw [hdelget r.FileId (by rw [hfid]; exact hfreshnotold u hu0)]
      · have hnone2 : kdLookup kd2 key = none := by
          rw [hout2 key hkmem]
          rfl
        rw [hlk] at hnone2
        exact Option.noConfusion hnone2
  · -- Get is preserved on every key
    intro k
    by_cases hkmem : k ∈ b.keyDir.map Prod.fst
    · obtain ⟨r0, hr0⟩ := kdLookup_some_of_mem_keys _ _ hkmem
      have hmem0 := kdLookup_mem_of_some _ _ _ hr0
      have hcv0 := hvals k r0 hmem0
      have hmemfs0 : r0.FileId ∈ fsNames b.fs := by
        obtain ⟨c0, _, hc0, _⟩ := hcv0
        exact fsGet_mem_names _ _ _ hc0
      obtain ⟨ha, hb2, hc2⟩ := hent2 k r0 hmem0
      by_cases hactc : r0.FileId = b.activeFile.fileName
      · have hlk2 := ha hactc
        unfold Bitcask.Get
        simp only [hlk2, hr0]
        exact ReadValueFromFile_congr b.fs (deleteFiles fs2 b.listOldFiles) r0.FileId k
          r0.ValuePos r0.ValueSize
          (by rw [hdelget r0.FileId (by rw [hactc]; exact hactnotold),
            hm2.fs0pres _ hmemfs0])
      · by_cases hts : val k r0 = TompStone
        · have hlk2 : kdLookup kd2 k = none := by
            rw [hb2 hactc hts]
            rfl
          unfold Bitcask.Get
          simp only [hlk2, hr0]
          rw [ReadValueFromFile_eq_of_containsRecVal b.fs k r0 (val k r0) hcv0, if_pos hts]
        · obtain ⟨r2, hlk2, hcrv2, u, hu0, hu1, hfid⟩ := hc2 hactc hts
          have hpres : containsRecVal (deleteFiles fs2 b.listOldFiles) k r2 (val k r0) :=
            containsRecVal_of_fsGet_eq
              (by rw [hdelget r2.FileId (by rw [hfid]; exact hfreshnotold u hu0)]) hcrv2
          unfold Bitcask.Get
          simp only [hlk2, hr0]
          rw [ReadValueFromFile_eq_of_containsRecVal _ k r2 (val k r0) hpres,
            ReadValueFromFile_eq_of_containsRecVal b.fs k r0 (val k r0) hcv0]
    · have hnone : kdLookup b.keyDir k = none := kdLookup_none_of_not_mem _ _ hkmem
      have hnone2 : kdLookup kd2 k = none := by
        rw [hout2 k hkmem]
        rfl
      unfold Bitcask.Get
      simp only [hnone, hnone2]
  · -- active-segment entries are copied unchanged
    intro key r hlk hactc
    exact (hent2 key r (kdLookup_mem_of_some _ _ _ hlk)).1 hactc
  · -- non-active tombstoned keys are dropped
    intro key r v hlk hcv hne hts
    have hmem0 := kdLookup_mem_of_some _ _ _ hlk
    have hveq : v = val key r := containsRecVal_fun hcv (hvals key r hmem0)
    have := (hent2 key r hmem0).2.1 hne (by rw [← hveq]; exact hts)
    show kdLookup kd2 key = none
    rw [this]
    rfl
  · -- non-active live keys are rebound to a fresh record with the same value
    intro key r v hlk hcv hne hts
    have hmem0 := kdLookup_mem_of_some _ _ _ hlk
    have hveq : v = val key r := containsRecVal_fun hcv (hvals key r hmem0)
    obtain ⟨r2, hlk2, hcrv2, u, hu0, hu1, hfid⟩ :=
      (hent2 key r hmem0).2.2 hne (by rw [← hveq]; exact hts)
    refine ⟨r2, hlk2, ?_, ?_⟩
    · rw [hfid]
      exact fun hmem => (hinv.winv.fresh _ hmem u hu0).1 rfl
    · have hpres : containsRecVal (deleteFiles fs2 b.listOldFiles) key r2 (val key r) :=
        containsRecVal_of_fsGet_eq
          (by rw [hdelget r2.FileId (by rw [hfid]; exact hfreshnotold u hu0)]) hcrv2
      rw [hveq]
      unfold Bitcask.Get
      simp only [hlk2]
      rw [ReadValueFromFile_eq_of_containsRecVal _ key r2 (val key r) hpres,
        if_neg (by rw [← hveq]; exact hts)]

/-- C3: the merge protocol, as the code implements it: index entries whose
`FileId` is the active segment are copied into the new index unchanged;
any other key whose stored value is the tombstone is dropped; any other
key is rebound to a record in a freshly minted merge segment (a file name
not present before the merge) from which Get returns the same value. -/
theorem C3_merge_amended (b : Bitcask) (hinv : EInv b)
    (hrw : ¬ b.usrOpts.accessPermission = ConfigOpt.ReadOnly) :
    ∃ b', b.Merge = (.ok (), b') ∧
      (∀ key r, kdLookup b.keyDir key = some r → r.FileId = b.activeFile.fileName →
        kdLookup b'.keyDir key = some r) ∧
      (∀ key r v, kdLookup b.keyDir key = some r → containsRecVal b.fs key r v →
        r.FileId ≠ b.activeFile.fileName → v = TompStone →
        kdLookup b'.keyDir key = none) ∧
      (∀ key r v, kdLookup b.keyDir key = some r → containsRecVal b.fs key r v →
        r.FileId ≠ b.activeFile.fileName → v ≠ TompStone →
        ∃ r2, kdLookup b'.keyDir key = some r2 ∧ r2.FileId ∉ fsNames b.fs ∧
          b'.Get key = .ok v) := by
  obtain ⟨b', h1, _, _, _, _, h2, h3, h4⟩ := Merge_spec b hinv hrw
  exact ⟨b', h1, h2, h3, h4⟩

/-- C3 witness: the amended merge description applied to the concrete
fresh read-write store. -/
theorem C3_merge_amended_witness :
    EInv openFreshRW ∧
    ¬ openFreshRW.usrOpts.accessPermission = ConfigOpt.ReadOnly ∧
    (∃ b', openFreshRW.Merge = (.ok (), b') ∧
      (∀ key r, kdLookup openFreshRW.keyDir key = some r →
        r.FileId = openFreshRW.activeFile.fileName →
        kdLookup b'.keyDir key = some r) ∧
      (∀ key r v, kdLookup openFreshRW.keyDir key = some r →
        containsRecVal openFreshRW.fs key r v →
        r.FileId ≠ openFreshRW.activeFile.fileName → v = TompStone →
        kdLookup b'.keyDir key = none) ∧
      (∀ key r v, kdLookup openFreshRW.keyDir key = some r →
        containsRecVal openFreshRW.fs key r v →
        r.FileId ≠ openFreshRW.activeFile.fileName → v ≠ TompStone →
        ∃ r2, kdLookup b'.keyDir key = some r2 ∧ r2.FileId ∉ fsNames openFreshRW.fs ∧
          b'.Get key = .ok v)) :=
  ⟨EInv_openFreshRW, by decide,
    C3_merge_amended openFreshRW EInv_openFreshRW (by decide)⟩

theorem Delete_spec (b : Bitcask) (k : Bytes) (hinv : EInv b)
    (hrw : ¬ b.usrOpts.accessPermission = ConfigOpt.ReadOnly)
    (hk : 18 + k.length < 2^16) :
    ∃ res b', b.Delete false k = (res, b') ∧ EInv b' ∧ b'.usrOpts = b.usrOpts ∧
      (∀ k2, k2 ≠ k → b'.Get k2 = b.Get k2) ∧
      b'.Get k = .error (.keyNotExist k) ∧
      (∀ v0, b.Get k = .ok v0 → res = .ok () ∧
        ∃ r, kdLookup b'.keyDir k = some r ∧ r.FileId = b'.activeFile.fileName ∧
          containsRecVal b'.fs k r TompStone) := by
  cases hget : b.Get k with
  | error e =>
    refine ⟨.error e, b, ?_, hinv, rfl, fun _ _ => rfl, ?_, ?_⟩
    · unfold Bitcask.Delete
      rw [if_neg hrw]
      simp only [hget]
    · unfold Bitcask.Get at hget ⊢
      cases hlk : kdLookup b.keyDir k with
      | none => simp only [hlk]
      | some r =>
        simp only [hlk] at hget ⊢
        obtain ⟨v, hcrv⟩ := hinv.kd k r hlk
        rw [ReadValueFromFile_eq_of_containsRecVal b.fs k r v hcrv] at hget ⊢
        by_cases hts : v = TompStone
        · rw [if_pos hts]
        · rw [if_neg hts] at hget
          exact Except.noConfusion hget
    · intro v0 h0
      exact Except.noConfusion h0
  | ok v0 =>
    obtain ⟨b', heq, hinv', hopts, hext, ⟨r, hlkr, hfidr, hcrv⟩, hlkpres, hgpres⟩ :=
      Put_spec b k TompStone hinv hrw hk (by rw [TompStone_length]; omega)
    have hdel : b.Delete false k = (.ok (), b') := by
      unfold Bitcask.Delete
      rw [if_neg hrw]
      simp only [hget, heq]
    have hget' : b'.Get k = .error (.keyNotExist k) := by
      unfold Bitcask.Get
      simp only [hlkr]
      rw [ReadValueFromFile_eq_of_containsRecVal b'.fs k r TompStone hcrv, if_pos rfl]
    exact ⟨.ok (), b', hdel, hinv', hopts, fun k2 hk2 => hgpres k2 hk2, hget',
      fun v1 _ => ⟨rfl, r, hlkr, hfidr, hcrv⟩⟩

/-- C3 counterexample: starting from the fresh read-write store, Put key
107 with value 118, then Delete it: the index entry for 107 now sits in
the active segment and stores the tombstone.  Merge succeeds and key 107
is still present in the post-merge index (copied unchanged), refuting the
claim that every key whose stored value is the tombstone is absent from
the post-merge index. -/
theorem C3_counterexample :
    ∃ b1 b2 r b3,
      openFreshRW.Put false [107] [118] = (.ok (), b1) ∧
      b1.Delete false [107] = (.ok (), b2) ∧
      kdLookup b2.keyDir [107] = some r ∧
      r.FileId = b2.activeFile.fileName ∧
      containsRecVal b2.fs [107] r TompStone ∧
      b2.Merge = (.ok (), b3) ∧
      kdLookup b3.keyDir [107] = some r := by
  obtain ⟨b1, heq1, hinv1, hopts1, _, ⟨r1, hlk1, _, hcrv1⟩, _, _⟩ :=
    Put_spec openFreshRW [107] [118] EInv_openFreshRW (by decide) (by norm_num) (by norm_num)
  have hrw1 : ¬ b1.usrOpts.accessPermission = ConfigOpt.ReadOnly := by
    rw [hopts1]
    decide
  have hget1 : b1.Get [107] = .ok [118] := by
    unfold Bitcask.Get
    simp only [hlk1]
    rw [ReadValueFromFile_eq_of_containsRecVal b1.fs [107] r1 [118] hcrv1,
      if_neg (by decide)]
  obtain ⟨res, b2, hdel, hinv2, hopts2, _, _, hok⟩ :=
    Delete_spec b1 [107] hinv1 hrw1 (by norm_num)
  obtain ⟨hres, r, hlk2, hfid2, hcrv2⟩ := hok [118] hget1
  subst hres
  have hrw2 : ¬ b2.usrOpts.accessPermission = ConfigOpt.ReadOnly := by
    rw [hopts2]
    exact hrw1
  obtain ⟨b3, hmeq, _, _, _, _, hcopy, _, _⟩ := Merge_spec b2 hinv2 hrw2
  exact ⟨b1, b2, r, b3, heq1, hdel, hlk2, hfid2, hcrv2, hmeq, hcopy [107] r hlk2 hfid2⟩

theorem execOp_step (b : Bitcask) (op : Op) (hinv : EInv b)
    (hrw : ¬ b.usrOpts.accessPermission = ConfigOpt.ReadOnly) (hwf : OpWF op) :
    EInv (execOp b op) ∧ (execOp b op).usrOpts = b.usrOpts ∧
    (∀ k, touchesKey k op = false → (execOp b op).Get k = b.Get k) ∧
    (∀ k, putsKey k op = false → b.Get k = .error (.keyNotExist k) →
      (execOp b op).Get k = .error (.keyNotExist k)) := by
  cases op with
  | put k' v' =>
    obtain ⟨hk', hv'⟩ := hwf
    obtain ⟨b', heq, hinv', hopts, _, _, _, hgpres⟩ := Put_spec b k' v' hinv hrw hk' hv'
    have hex : execOp b (.put k' v') = b' := by
      show (b.Put false k' v').2 = b'
      rw [heq]
    rw [hex]
    refine ⟨hinv', hopts, ?_, ?_⟩
    · intro k hnt
      have hnt' : decide (k' = k) = false := hnt
      exact hgpres k (fun hc => of_decide_eq_false hnt' hc.symm)
    · intro k hnp hget
      have hnp' : decide (k' = k) = false := hnp
      rw [hgpres k (fun hc => of_decide_eq_false hnp' hc.symm), hget]
  | delete k' =>
    have hk' : 18 + k'.length < 2^16 := hwf
    obtain ⟨res, b', heq, hinv', hopts, hpres, hnot, _⟩ := Delete_spec b k' hinv hrw hk'
    have hex : execOp b (.delete k') = b' := by
      show (b.Delete false k').2 = b'
      rw [heq]
    rw [hex]
    refine ⟨hinv', hopts, ?_, ?_⟩
    · intro k hnt
      have hnt' : decide (k' = k) = false := hnt
      exact hpres k (fun hc => of_decide_eq_false hnt' hc.symm)
    · intro k _ hget
      by_cases hkk : k' = k
      · subst hkk
        exact hnot
      · rw [hpres k (fun hc => hkk hc.symm), hget]
  | get k0 => exact ⟨hinv, rfl, fun _ _ => rfl, fun _ _ h => h⟩
  | listKeys => exact ⟨hinv, rfl, fun _ _ => rfl, fun _ _ h => h⟩
  | sync =>
    have hex : execOp b .sync = b := by
      show (b.Sync).2 = b
      unfold Bitcask.Sync
      rw [if_neg hrw]
    rw [hex]
    exact ⟨hinv, rfl, fun _ _ => rfl, fun _ _ h => h⟩
  | merge =>
    obtain ⟨b', heq, hinv', hopts, _, hgp, _, _, _⟩ := Merge_spec b hinv hrw
    have hex : execOp b .merge = b' := by
      show (b.Merge).2 = b'
      rw [heq]
    rw [hex]
    exact ⟨hinv', hopts, fun k _ => hgp k, fun k _ hget => by rw [hgp k, hget]⟩

theorem execOps_spec (ops : List Op) : ∀ b : Bitcask,
    EInv b → ¬ b.usrOpts.accessPermission = ConfigOpt.ReadOnly →
    (∀ op ∈ ops, OpWF op) →
    EInv (execOps b ops) ∧ (execOps b ops).usrOpts = b.usrOpts ∧
    (∀ k, (∀ op ∈ ops, touchesKey k op = false) → (execOps b ops).Get k = b.Get k) ∧
    (∀ k, (∀ op ∈ ops, putsKey k op = false) → b.Get k = .error (.keyNotExist k) →
      (execOps b ops).Get k = .error (.keyNotExist k)) := by
  induction ops with
  | nil =>
    intro b hinv _ _
    exact ⟨hinv, rfl, fun _ _ => rfl, fun _ _ h => h⟩
  | cons op rest ih =>
    intro b hinv hrw hwf
    obtain ⟨hinv1, hopts1, hg1, hn1⟩ :=
      execOp_step b op hinv hrw (hwf op (List.mem_cons_self _ _))
    have hrw1 : ¬ (execOp b op).usrOpts.accessPermission = ConfigOpt.ReadOnly := by
      rw [hopts1]
      exact hrw
    obtain ⟨hinv2, hopts2, hg2, hn2⟩ := ih (execOp b op) hinv1 hrw1
      (fun o h => hwf o (List.mem_cons_of_mem _ h))
    have hfold : execOps b (op :: rest) = execOps (execOp b op) rest := rfl
    rw [hfold]
    refine ⟨hinv2, by rw [hopts2, hopts1], ?_, ?_⟩
    · intro k hnt
      rw [hg2 k (fun o h => hnt o (List.mem_cons_of_mem _ h)),
        hg1 k (hnt op (List.mem_cons_self _ _))]
    · intro k hnp hget
      exact hn2 k (fun o h => hnp o (List.mem_cons_of_mem _ h))
        (hn1 k (hnp op (List.mem_cons_self _ _)) hget)

/-- C1 (amended): on the fresh read-write store, for operation sequences
whose puts and deletes respect the record-format size bounds and whose
distinguished value is not the tombstone literal: after `Put k v` with no
later Put or Delete of `k`, `Get k` returns `v`; and after `Delete k`
with no later Put of `k`, `Get k` returns the key-not-exist error. -/
theorem C1_sequential_reads_amended (ops1 ops2 : List Op) (k v : Bytes)
    (hwf1 : ∀ op ∈ ops1, OpWF op) (hwf2 : ∀ op ∈ ops2, OpWF op)
    (hk : 18 + k.length < 2^16) (hv : 18 + k.length + v.length < 2^32)
    (hts : v ≠ TompStone) :
    ((∀ op ∈ ops2, touchesKey k op = false) →
      (execOps openFreshRW (ops1 ++ Op.put k v :: ops2)).Get k = .ok v) ∧
    ((∀ op ∈ ops2, putsKey k op = false) →
      (execOps openFreshRW (ops1 ++ Op.delete k :: ops2)).Get k =
        .error (.keyNotExist k)) := by
  obtain ⟨hinv1, hopts1, _, _⟩ :=
    execOps_spec ops1 openFreshRW EInv_openFreshRW (by decide) hwf1
  have hrw1 : ¬ (execOps openFreshRW ops1).usrOpts.accessPermission = ConfigOpt.ReadOnly := by
    rw [hopts1]
    decide
  constructor
  · intro hnt
    have hsplit : execOps openFreshRW (ops1 ++ Op.put k v :: ops2) =
        execOps (execOp (execOps openFreshRW ops1) (Op.put k v)) ops2 := by
      unfold execOps
      rw [List.foldl_append, List.foldl_cons]
    obtain ⟨b2, heq2, hinv2, hopts2, _, ⟨r, hlkr, _, hcrv⟩, _, _⟩ :=
      Put_spec (execOps openFreshRW ops1) k v hinv1 hrw1 hk hv
    have hex2 : execOp (execOps openFreshRW ops1) (Op.put k v) = b2 := by
      show ((execOps openFreshRW ops1).Put false k v).2 = b2
      rw [heq2]
    have hget2 : b2.Get k = .ok v := by
      unfold Bitcask.Get
      simp only [hlkr]
      rw [ReadValueFromFile_eq_of_containsRecVal b2.fs k r v hcrv, if_neg hts]
    have hrw2 : ¬ b2.usrOpts.accessPermission = ConfigOpt.ReadOnly := by
      rw [hopts2]
      exact hrw1
    obtain ⟨_, _, hg2, _⟩ := execOps_spec ops2 b2 hinv2 hrw2 hwf2
    rw [hsplit, hex2, hg2 k hnt, hget2]
  · intro hnp
    have hsplit : execOps openFreshRW (ops1 ++ Op.delete k :: ops2) =
        execOps (execOp (execOps openFreshRW ops1) (Op.delete k)) ops2 := by
      unfold execOps
      rw [List.foldl_append, List.foldl_cons]
    obtain ⟨res, b2, heq2, hinv2, hopts2, _, hnot, _⟩ :=
      Delete_spec (execOps openFreshRW ops1) k hinv1 hrw1 hk
    have hex2 : execOp (execOps openFreshRW ops1) (Op.delete k) = b2 := by
      show ((execOps openFreshRW ops1).Delete false k).2 = b2
      rw [heq2]
    have hrw2 : ¬ b2.usrOpts.accessPermission = ConfigOpt.ReadOnly := by
      rw [hopts2]
      exact hrw1
    obtain ⟨_, _, _, hn2⟩ := execOps_spec ops2 b2 hinv2 hrw2 hwf2
    rw [hsplit, hex2]
    exact hn2 k hnp hnot

/-- C1 witness: the amended sequence theorem applied to concrete
sessions: put key 1, put (or delete) key 107, put key 3, merge. -/
theorem C1_sequential_reads_amended_witness :
    (∀ op ∈ [Op.put [1] [2]], OpWF op) ∧
    (∀ op ∈ [Op.put [3] [4], Op.merge], OpWF op) ∧
    18 + ([107] : Bytes).length < 2^16 ∧
    18 + ([107] : Bytes).length + ([118] : Bytes).length < 2^32 ∧
    ([118] : Bytes) ≠ TompStone ∧
    (∀ op ∈ [Op.put [3] [4], Op.merge], touchesKey [107] op = false) ∧
    (∀ op ∈ [Op.put [3] [4], Op.merge], putsKey [107] op = false) ∧
    (execOps openFreshRW
      ([Op.put [1] [2]] ++ Op.put [107] [118] :: [Op.put [3] [4], Op.merge])).Get [107] =
      .ok [118] ∧
    (execOps openFreshRW
      ([Op.put [1] [2]] ++ Op.delete [107] :: [Op.put [3] [4], Op.merge])).Get [107] =
      .error (.keyNotExist [107]) := by
  have hwf1 : ∀ op ∈ [Op.put [1] [2]], OpWF op := by
    intro op h
    simp only [List.mem_singleton] at h
    subst h
    exact ⟨by decide, by decide⟩
  have hwf2 : ∀ op ∈ [Op.put [3] [4], Op.merge], OpWF op := by
    intro op h
    rcases List.mem_cons.mp h with rfl | h
    · exact ⟨by decide, by decide⟩
    · simp only [List.mem_singleton] at h
      subst h
      exact trivial
  have happ := C1_sequential_reads_amended [Op.put [1] [2]] [Op.put [3] [4], Op.merge]
    [107] [118] hwf1 hwf2 (by decide) (by decide) (by decide)
  exact ⟨hwf1, hwf2, by decide, by decide, by decide, by decide, by decide,
    happ.1 (by decide), happ.2 (by decide)⟩

/-- C1 counterexample: putting the tombstone literal as a value breaks
the claim as stated: after `Put [107] TompStone` with no later operation
at all, `Get [107]` does not return the value written but the
key-not-exist error. -/
theorem C1_counterexample :
    ∃ b', execOps openFreshRW [Op.put [107] TompStone] = b' ∧
      b'.Get [107] ≠ .ok TompStone ∧
      b'.Get [107] = .error (.keyNotExist [107]) := by
  obtain ⟨b', heq, _, _, _, ⟨r, hlk, _, hcrv⟩, _, _⟩ :=
    Put_spec openFreshRW [107] TompStone EInv_openFreshRW (by decide) (by decide) (by decide)
  have hexec : execOps openFreshRW [Op.put [107] TompStone] = b' := by
    show (openFreshRW.Put false [107] TompStone).2 = b'
    rw [heq]
  have hget : b'.Get [107] = .error (.keyNotExist [107]) := by
    unfold Bitcask.Get
    simp only [hlk]
    rw [ReadValueFromFile_eq_of_containsRecVal b'.fs [107] r TompStone hcrv, if_pos rfl]
  refine ⟨b', hexec, ?_, hget⟩
  rw [hget]
  intro hc
  exact Except.noConfusion hc
